import Mathlib

/-!
# Verification of the coin-payments core

A shallow embedding of the core algorithms of the `coin-payments` repository:

* the UTXO transaction planner of
  `packages/bitcoin-payments/src/bitcoinish/BitcoinishPayments.ts`
  (`estimateTxFee`, `selectInputUtxos`, `buildPaymentTx`,
  `broadcastTransaction`), and
* the account-ledger balance monitor of `RippleBalanceMonitor`
  (`resolveFromToLedgers`, `paymentToBalanceActivities`).

Monetary values are carried in integer base units (satoshis / drops) as `ℤ`.
Fee rates come from `parseFloat` in the source and may be fractional; they are
modelled as exact rationals (`ℚ`).  JavaScript `Math.floor` / `Math.ceil` on a
quotient of integers are modelled by `Int.fdiv` and `intCeilDiv` (exact floor /
ceiling division); `Math.ceil` on a rational fee is `Int.ceil`.  I/O boundaries
(address validation, the node facade, denomination string formatting) are
passed in as parameters or dropped where they do not affect values.
-/

/-- `FeeRateType` of `@faast/payments-common`: the unit a fee rate is quoted in. -/
inductive FeeRateType where
  | BasePerWeight
  | Main
  | Base
deriving DecidableEq, Repr

/-- A fee rate: the source carries the rate as a string and applies
`Number.parseFloat`; the parsed value is modelled as an exact rational. -/
structure FeeRate where
  feeRate : ℚ
  feeRateType : FeeRateType
deriving DecidableEq, Repr

/-- A transaction output in base units (`BitcoinishTxOutputSatoshis`). -/
structure TxOutput where
  address : String
  satoshis : ℤ
deriving DecidableEq, Repr

/-- A spendable output (`UtxoInfo`), with its value already converted to base
units (the source accepts either a `satoshis` number or a main-denomination
`value` string and normalizes to satoshis on entry to `selectInputUtxos`). -/
structure UtxoIn where
  txid : String
  vout : ℕ
  satoshis : ℤ
  height : Option ℤ
deriving DecidableEq, Repr

/-- The configuration fields of `BitcoinishPayments` used by the planner.
`validAddress` stands for the coin-specific abstract `isValidAddress`. -/
structure BtcConfig where
  decimals : ℕ
  minTxFee : Option FeeRate
  dustThreshold : ℤ
  networkMinRelayFee : ℤ
  targetUtxoPoolSize : ℤ
  minChangeSat : ℤ
  validAddress : String → Bool

/-- Sum of the base-unit values of a list of outputs. -/
def satSum (outputs : List TxOutput) : ℤ :=
  (outputs.map TxOutput.satoshis).sum

/-- Sum of the base-unit values of a list of UTXOs. -/
def utxoSatSum (utxos : List UtxoIn) : ℤ :=
  (utxos.map UtxoIn.satoshis).sum

/-- `BitcoinishPayments.estimateTxSize`: default P2PKH size estimate,
`10 + 148·inputCount + 34·(changeOutputCount + externalOutputCount)`. -/
def estimateTxSize (inputCount : ℕ) (changeOutputCount : ℤ)
    (externalOutputAddresses : List String) : ℤ :=
  10 + 148 * inputCount + 34 * (changeOutputCount + externalOutputAddresses.length)

/-- `BitcoinishPayments.feeRateToSatoshis`.  For the `Main` rate type the
source calls `toBaseDenominationNumber` (from `BitcoinishPaymentsUtils`, not
under `src/`); that conversion is modelled from the spec (§4.1): multiply by
`10^decimals` and floor. -/
def feeRateToSatoshis (cfg : BtcConfig) (fr : FeeRate) (inputCount : ℕ)
    (changeOutputCount : ℤ) (externalOutputAddresses : List String) : ℚ :=
  match fr.feeRateType with
  | .BasePerWeight =>
      fr.feeRate * ((estimateTxSize inputCount changeOutputCount externalOutputAddresses : ℤ) : ℚ)
  | .Main => ((⌊fr.feeRate * (10 : ℚ) ^ cfg.decimals⌋ : ℤ) : ℚ)
  | .Base => fr.feeRate

/-- `BitcoinishPayments.estimateTxFee`: the rate-derived fee, floor-clamped by
`minTxFee` (when configured) and by `networkMinRelayFee`, then ceiled. -/
def estimateTxFee (cfg : BtcConfig) (targetRate : FeeRate) (inputCount : ℕ)
    (changeOutputCount : ℤ) (externalOutputAddresses : List String) : ℤ :=
  let feeSat := feeRateToSatoshis cfg targetRate inputCount changeOutputCount
    externalOutputAddresses
  let feeSat1 :=
    match cfg.minTxFee with
    | some minRate =>
        let minTxFeeSat := feeRateToSatoshis cfg minRate inputCount changeOutputCount
          externalOutputAddresses
        if feeSat < minTxFeeSat then minTxFeeSat else feeSat
    | none => feeSat
  let feeSat2 :=
    if feeSat1 < (cfg.networkMinRelayFee : ℚ) then (cfg.networkMinRelayFee : ℚ) else feeSat1
  ⌈feeSat2⌉

/-- `BitcoinishPayments.determineTargetChangeOutputCount`. -/
def determineTargetChangeOutputCount (cfg : BtcConfig)
    (unusedUtxoCount inputUtxoCount : ℕ) : ℤ :=
  let remainingUtxoCount : ℤ := (unusedUtxoCount : ℤ) - (inputUtxoCount : ℤ)
  if remainingUtxoCount < cfg.targetUtxoPoolSize then
    cfg.targetUtxoPoolSize - remainingUtxoCount
  else 1

/-- Modelled from the spec: `isConfirmedUtxo` lives in `./utils`, which is not
under `src/`; the spec (§3) defines a UTXO as confirmed iff its `height` is a
positive integer. -/
def isConfirmedUtxo (u : UtxoIn) : Bool :=
  match u.height with
  | some h => decide (0 < h)
  | none => false

/-- Modelled from the spec: the `sortUtxos` comparison from `./utils` (not
under `src/`); the spec (§4.4 step 2) orders confirmed before unconfirmed,
then by descending value, tie-broken by `(txid, vout)` ascending. -/
def utxoSortLE (a b : UtxoIn) : Bool :=
  if isConfirmedUtxo a ≠ isConfirmedUtxo b then isConfirmedUtxo a
  else if a.satoshis ≠ b.satoshis then decide (b.satoshis < a.satoshis)
  else if a.txid ≠ b.txid then decide (a.txid < b.txid)
  else decide (a.vout ≤ b.vout)

/-- Insertion step of the stable sort used to model `sortUtxos`. -/
def insertSorted (x : UtxoIn) : List UtxoIn → List UtxoIn
  | [] => [x]
  | y :: ys => if utxoSortLE x y then x :: y :: ys else y :: insertSorted x ys

/-- Modelled from the spec: `sortUtxos` from `./utils` (not under `src/`),
as a stable insertion sort by `utxoSortLE`. -/
def sortUtxos : List UtxoIn → List UtxoIn
  | [] => []
  | x :: xs => insertSorted x (sortUtxos xs)

/-- Result triple of `selectInputUtxos`. -/
structure SelectResult where
  selectedUtxos : List UtxoIn
  selectedTotalSat : ℤ
  feeSat : ℤ
deriving DecidableEq, Repr

/-- The incremental accumulation loop of `selectInputUtxos` ("Incrementally
select utxos until we cover output + fees"): append each candidate, recompute
the target change count and the fee, stop once the selected total covers
`outputTotal + fee`. -/
def accumulateUtxos (cfg : BtcConfig) (feeRate : FeeRate) (outputTotal : ℤ)
    (outputAddresses : List String) (unusedUtxoCount : ℕ)
    (sel : List UtxoIn) (selTotal feeSat : ℤ) : List UtxoIn → SelectResult
  | [] => ⟨sel, selTotal, feeSat⟩
  | u :: rest =>
    let sel2 := sel ++ [u]
    let selTotal2 := selTotal + u.satoshis
    let targetChangeOutputCount :=
      determineTargetChangeOutputCount cfg unusedUtxoCount sel2.length
    let feeSat2 := estimateTxFee cfg feeRate sel2.length targetChangeOutputCount outputAddresses
    if outputTotal + feeSat2 ≤ selTotal2 then ⟨sel2, selTotal2, feeSat2⟩
    else accumulateUtxos cfg feeRate outputTotal outputAddresses unusedUtxoCount
      sel2 selTotal2 feeSat2 rest

/-- `BitcoinishPayments.selectInputUtxos`: filter unconfirmed candidates when
`useUnconfirmedUtxos` is false; in sweep mode take everything with a
zero-change fee estimate; otherwise try the ideal single-input solution on the
original order, then accumulate over the sorted candidates. -/
def selectInputUtxos (cfg : BtcConfig) (unusedUtxos : List UtxoIn) (outputTotal : ℤ)
    (outputAddresses : List String) (feeRate : FeeRate)
    (useAllUtxos useUnconfirmedUtxos : Bool) : SelectResult :=
  let utxos := unusedUtxos.filter (fun u => useUnconfirmedUtxos || isConfirmedUtxo u)
  if useAllUtxos then
    ⟨utxos, utxoSatSum utxos, estimateTxFee cfg feeRate utxos.length 0 outputAddresses⟩
  else
    let idealSolutionFeeSat := estimateTxFee cfg feeRate 1 0 outputAddresses
    let idealSolutionMinSat := outputTotal + idealSolutionFeeSat
    let idealSolutionMaxSat := idealSolutionMinSat + cfg.dustThreshold
    match utxos.find? (fun u =>
        decide (idealSolutionMinSat ≤ u.satoshis) && decide (u.satoshis ≤ idealSolutionMaxSat)) with
    | some u => ⟨[u], u.satoshis, idealSolutionFeeSat⟩
    | none =>
        accumulateUtxos cfg feeRate outputTotal outputAddresses unusedUtxos.length
          [] 0 0 (sortUtxos utxos)

/-- The failure modes of `buildPaymentTx` (each `throw` site gets one
constructor, carrying the values interpolated into the source's message). -/
inductive BuildError where
  | invalidAddress (address : String) (index : ℕ)
  | invalidAmount (address : String) (index : ℕ) (satoshis : ℤ)
  | invalidChangeAddress (address : String)
  | dustOutput (index : ℕ) (satoshis feeShare : ℤ)
  | insufficientFunds (availableSat outputSat feeSat : ℤ)
  | negativeChange
  | negativeLooseChange
deriving DecidableEq, Repr

/-- The output-validation loop at the top of `buildPaymentTx`: checks each
desired output's address and positivity and accumulates the external total.
(The source keeps a converted copy of each output; values are identical, so
only the running total is returned.  The `isNaN` guard has no counterpart for
exact integers.) -/
def validateOutputs (cfg : BtcConfig) : List TxOutput → ℕ → Except BuildError ℤ
  | [], _ => .ok 0
  | o :: rest, i =>
    if cfg.validAddress o.address = false then .error (.invalidAddress o.address i)
    else if o.satoshis ≤ 0 then .error (.invalidAmount o.address i o.satoshis)
    else
      match validateOutputs cfg rest (i + 1) with
      | .error e => .error e
      | .ok total => .ok (o.satoshis + total)

/-- `Math.ceil(a / b)` for integers: exact ceiling division (for `b > 0`). -/
def intCeilDiv (a b : ℤ) : ℤ := -(Int.fdiv (-a) b)

/-- The fee-subtraction loop of the sweeping branch of `buildPaymentTx`:
subtract `feeShare` from each external output, failing on the first output
that lands at or below the dust threshold. -/
def subtractFeeShare (cfg : BtcConfig) (feeShare : ℤ) :
    List TxOutput → ℕ → Except BuildError (List TxOutput)
  | [], _ => .ok []
  | o :: rest, i =>
    let satoshis2 := o.satoshis - feeShare
    if satoshis2 ≤ cfg.dustThreshold then .error (.dustOutput i satoshis2 feeShare)
    else
      match subtractFeeShare cfg feeShare rest (i + 1) with
      | .error e => .error e
      | .ok rest2 => .ok (⟨o.address, satoshis2⟩ :: rest2)

/-- The "Account for insufficient inputs and sweeping cases" block of
`buildPaymentTx` (lines 372-399): when `externalOutputTotal + feeSat >
inputTotal`, either share the fee across all outputs (full-balance sweep,
`externalOutputTotal === inputTotal`) or fail with insufficient funds.
Returns the (possibly reduced) outputs, their new total, and the new fee. -/
def applyFeeAdjustment (cfg : BtcConfig) (externalOutputs : List TxOutput)
    (externalOutputTotal feeSat inputTotal : ℤ) :
    Except BuildError (List TxOutput × ℤ × ℤ) :=
  if inputTotal < externalOutputTotal + feeSat then
    if externalOutputTotal = inputTotal then
      let feeShare := intCeilDiv feeSat externalOutputs.length
      let feeSat2 := feeShare * externalOutputs.length
      match subtractFeeShare cfg feeShare externalOutputs 0 with
      | .error e => .error e
      | .ok externalOutputs2 =>
          .ok (externalOutputs2, externalOutputTotal - feeSat2, feeSat2)
    else .error (.insufficientFunds inputTotal externalOutputTotal feeSat)
  else .ok (externalOutputs, externalOutputTotal, feeSat)

/-- A change address with a weight (`BitcoinishWeightedChangeOutput`). -/
structure WeightedChangeOutput where
  address : String
  weight : ℤ
deriving DecidableEq, Repr

/-- `BitcoinishPayments.createWeightedChangeOutputs`: weights `2^0 … 2^(k-1)`. -/
def createWeightedChangeOutputs (changeOutputCount : ℤ) (changeAddress : String) :
    List WeightedChangeOutput :=
  (List.range changeOutputCount.toNat).map (fun i => ⟨changeAddress, 2 ^ i⟩)

/-- Total weight of a weighted change schedule. -/
def weightSum (ws : List WeightedChangeOutput) : ℤ :=
  (ws.map WeightedChangeOutput.weight).sum

/-- The change-distribution loop of `buildPaymentTx` (lines 414-427):
`changeSat = Math.floor(totalChangeSat * (weight / totalWeight))`, dropping
any share at or below the dust threshold or below `minChangeSat`.  Returns
the surviving outputs and the total allocated. -/
def weightedSplit (cfg : BtcConfig) (totalChangeSat totalChangeWeight : ℤ) :
    List WeightedChangeOutput → (List TxOutput × ℤ)
  | [] => ([], 0)
  | w :: rest =>
    let changeSat := Int.fdiv (totalChangeSat * w.weight) totalChangeWeight
    let res := weightedSplit cfg totalChangeSat totalChangeWeight rest
    if changeSat ≤ cfg.dustThreshold ∨ changeSat < cfg.minChangeSat then res
    else (⟨w.address, changeSat⟩ :: res.1, changeSat + res.2)

/-- The loose-change branch chain of `buildPaymentTx` (lines 446-462),
including the final `feeSat += looseChange; totalChangeSat -= looseChange`.
The source's redistribution guard is `looseChange / changeOutputs.length > 1`
with real division; for a positive count that is exactly
`changeOutputs.length < looseChange`. -/
def redistributeLoose (cfg : BtcConfig) (changeAddress : String)
    (changeOutputs : List TxOutput) (looseChange feeSat totalChangeSat : ℤ) :
    Except BuildError (List TxOutput × ℤ × ℤ) :=
  if looseChange < 0 then .error .negativeLooseChange
  else if 0 < changeOutputs.length ∧ (changeOutputs.length : ℤ) < looseChange then
    let extraSatPerChangeOutput := Int.fdiv looseChange changeOutputs.length
    let looseChange2 := looseChange - extraSatPerChangeOutput * changeOutputs.length
    .ok (changeOutputs.map (fun o => ⟨o.address, o.satoshis + extraSatPerChangeOutput⟩),
      feeSat + looseChange2, totalChangeSat - looseChange2)
  else if changeOutputs.length = 0 ∧ cfg.dustThreshold < looseChange then
    .ok ([⟨changeAddress, looseChange⟩], feeSat, totalChangeSat)
  else .ok (changeOutputs, feeSat + looseChange, totalChangeSat - looseChange)

/-- The "Change handling" block of `buildPaymentTx` (lines 401-463): split the
total change over the weighted schedule, recompute the fee with the actual
change-output count (`changeOutputs.length || 1`), hand any fee overestimate
back to loose change, then reconcile the loose change. -/
def changeHandling (cfg : BtcConfig) (changeAddress : String) (desiredFeeRate : FeeRate)
    (externalOutputAddresses : List String) (unusedUtxoCount inputUtxoCount : ℕ)
    (totalChangeSat feeSat : ℤ) : Except BuildError (List TxOutput × ℤ × ℤ) :=
  if totalChangeSat < 0 then .error .negativeChange
  else
    let targetChangeOutputCount :=
      determineTargetChangeOutputCount cfg unusedUtxoCount inputUtxoCount
    let changeOutputWeights := createWeightedChangeOutputs targetChangeOutputCount changeAddress
    let totalChangeWeight := weightSum changeOutputWeights
    let sp := weightedSplit cfg totalChangeSat totalChangeWeight changeOutputWeights
    let looseChange := totalChangeSat - sp.2
    let recalculatedFee := estimateTxFee cfg desiredFeeRate inputUtxoCount
      (if sp.1.length = 0 then 1 else (sp.1.length : ℤ)) externalOutputAddresses
    if recalculatedFee < feeSat then
      redistributeLoose cfg changeAddress sp.1 (looseChange + (feeSat - recalculatedFee))
        recalculatedFee (totalChangeSat + (feeSat - recalculatedFee))
    else
      redistributeLoose cfg changeAddress sp.1 looseChange feeSat totalChangeSat

/-- Parameters of `buildPaymentTx` (the source defaults both booleans to
`false` when undefined; the defaults are resolved here). -/
structure BuildParams where
  unusedUtxos : List UtxoIn
  desiredOutputs : List TxOutput
  changeAddress : String
  desiredFeeRate : FeeRate
  useAllUtxos : Bool
  useUnconfirmedUtxos : Bool

/-- The plan returned by `buildPaymentTx`, in base units.  The source converts
values back to main-denomination strings and adds serializer-derived
`rawHex` / `rawHash` fields; those boundary conversions carry no information
about the amounts. -/
structure PaymentPlan where
  inputs : List UtxoIn
  externalOutputs : List TxOutput
  changeOutputs : List TxOutput
  feeSat : ℤ
  totalChangeSat : ℤ
  externalOutputTotal : ℤ
deriving DecidableEq, Repr

/-- `BitcoinishPayments.buildPaymentTx` (lines 324-479). -/
def buildPaymentTx (cfg : BtcConfig) (p : BuildParams) : Except BuildError PaymentPlan :=
  match validateOutputs cfg p.desiredOutputs 0 with
  | .error e => .error e
  | .ok externalOutputTotal =>
    if cfg.validAddress p.changeAddress = false then
      .error (.invalidChangeAddress p.changeAddress)
    else
      let externalOutputAddresses := p.desiredOutputs.map TxOutput.address
      let sel := selectInputUtxos cfg p.unusedUtxos externalOutputTotal
        externalOutputAddresses p.desiredFeeRate p.useAllUtxos p.useUnconfirmedUtxos
      match applyFeeAdjustment cfg p.desiredOutputs externalOutputTotal
        sel.feeSat sel.selectedTotalSat with
      | .error e => .error e
      | .ok adj =>
        match changeHandling cfg p.changeAddress p.desiredFeeRate externalOutputAddresses
          p.unusedUtxos.length sel.selectedUtxos.length
          (sel.selectedTotalSat - adj.2.1 - adj.2.2) adj.2.2 with
        | .error e => .error e
        | .ok ch =>
          .ok { inputs := sel.selectedUtxos
                externalOutputs := adj.1
                changeOutputs := ch.1
                feeSat := ch.2.1
                totalChangeSat := ch.2.2
                externalOutputTotal := adj.2.1 }

/-- A signed transaction as consumed by `broadcastTransaction`. -/
structure SignedTx where
  id : String
  dataHex : String
deriving DecidableEq, Repr

/-- `BitcoinishBroadcastResult`. -/
structure BroadcastResult where
  id : String
deriving DecidableEq, Repr

/-- JavaScript `message.startsWith(pat)`, modelled over the character lists
(equivalent to `String.startsWith`, but directly computable). -/
def strStartsWith (s pat : String) : Bool := pat.data.isPrefixOf s.data

/-- `BitcoinishPayments.broadcastTransaction` (lines 604-622).  `sendTx` is the
injected node facade call; an exception is an `Except.error` carrying
`e.message || ''`.  The second component of the result records whether the
txid-mismatch warning was logged. -/
def broadcastTransaction (tx : SignedTx) (sendTx : String → Except String String) :
    Except String (BroadcastResult × Bool) :=
  match sendTx tx.dataHex with
  | .ok txId => .ok (⟨tx.id⟩, decide (tx.id ≠ txId))
  | .error e =>
    if strStartsWith e "-27" then .ok (⟨tx.id⟩, false)
    else .error e

/-- Modelled from the spec: `padLeft` from the Ripple `./utils` module is not
under `src/`; the spec (§4.6) calls it `zero_pad(s, width)`: left-pad with the
given character up to `width`. -/
def padLeft (s : String) (width : ℕ) (c : Char) : String :=
  if s.length < width then String.mk (List.replicate (width - s.length) c) ++ s else s

/-- Direction of a balance activity. -/
inductive ActivityKind where
  | outgoing
  | incoming
deriving DecidableEq, Repr

/-- One entry of `tx.outcome.balanceChanges[address]`. -/
structure BalanceChange where
  currency : String
  value : String
deriving DecidableEq, Repr

/-- The fields of a Ripple payment transaction read by
`paymentToBalanceActivities`. -/
structure RippleTx where
  id : String
  sourceAddress : String
  destinationAddress : String
  sourceTag : Option ℕ
  destinationTag : Option ℕ
  ledgerVersion : ℕ
  indexInLedger : ℕ
  balanceChanges : List (String × List BalanceChange)
deriving DecidableEq, Repr

/-- The `BalanceActivity` record built by the Ripple monitor. -/
structure BalanceActivity where
  kind : ActivityKind
  networkType : String
  networkSymbol : String
  assetSymbol : String
  address : String
  extraId : Option String
  amount : String
  externalId : String
  activitySequence : String
  confirmationId : String
  confirmationNumber : ℕ
  timestamp : ℤ
deriving DecidableEq, Repr

/-- `RippleBalanceMonitor.paymentToBalanceActivities`.  `ledgerHash` and
`closeTime` stand for the awaited `getLedger` lookup; `networkType` for the
monitor's configured network. -/
def paymentToBalanceActivities (networkType address : String) (tx : RippleTx)
    (ledgerHash : String) (closeTime : ℤ) : Option BalanceActivity :=
  let kindOpt : Option ActivityKind :=
    if tx.sourceAddress = address then some .outgoing
    else if tx.destinationAddress = address then some .incoming
    else none
  match kindOpt with
  | none => none
  | some kind =>
    let primarySequence := padLeft (toString tx.ledgerVersion) 12 '0'
    let secondarySequence := padLeft (toString tx.indexInLedger) 8 '0'
    let tag := match kind with
      | .outgoing => tx.sourceTag
      | .incoming => tx.destinationTag
    let changes := (((tx.balanceChanges.find? (fun e => e.1 == address)).map Prod.snd).getD [])
    match changes.find? (fun c => c.currency == "XRP") with
    | none => none
    | some balanceChange =>
      let tertiarySequence : String := match kind with
        | .outgoing => "00"
        | .incoming => "01"
      some {
        kind := kind
        networkType := networkType
        networkSymbol := "TRX"
        assetSymbol := balanceChange.currency
        address := address
        extraId := tag.map toString
        amount := balanceChange.value
        externalId := tx.id
        activitySequence := primarySequence ++ "." ++ secondarySequence ++ "." ++ tertiarySequence
        confirmationId := ledgerHash
        confirmationNumber := tx.ledgerVersion
        timestamp := closeTime
      }

/-- A caller-supplied ledger bound: a numeric ledger height or a record
carrying a `confirmationNumber`. -/
inductive LedgerBound where
  | num (n : ℕ)
  | byConfirmation (confirmationNumber : ℕ)
deriving DecidableEq, Repr

/-- The numeric value the source extracts from an optional `from`/`to` bound. -/
def requestedLedger : Option LedgerBound → Option ℕ
  | none => none
  | some (.num n) => some n
  | some (.byConfirmation c) => some c

/-- The effective scan window: `from`, `to`, and how many narrowing warnings
were logged. -/
structure LedgerWindow where
  fromLedger : ℕ
  toLedger : ℕ
  warnings : ℕ
deriving DecidableEq, Repr

/-- `RippleBalanceMonitor.resolveFromToLedgers`.  The server's
`completeLedgers = "min-max"` string arrives already split and parsed as
`completeMin` / `completeMax`. -/
def resolveFromToLedgers (completeMin completeMax : ℕ)
    (fromBound toBound : Option LedgerBound) : LedgerWindow :=
  let requestedFrom := requestedLedger fromBound
  let requestedTo := requestedLedger toBound
  let fromRes : ℕ × ℕ :=
    match requestedFrom with
    | none => (completeMin, 0)
    | some n => if n < completeMin then (completeMin, 1) else (n, 0)
  let toRes : ℕ × ℕ :=
    match requestedTo with
    | none => (completeMax, 0)
    | some n => if completeMax < n then (completeMax, 1) else (n, 0)
  ⟨fromRes.1, toRes.1, fromRes.2 + toRes.2⟩

deriving instance DecidableEq for Except

/-! ## Concrete instances used by witnesses and counterexamples -/

/-- An address validator accepting everything (chain validation is injected). -/
def alwaysValid : String → Bool := fun _ => true

/-- dust 546, relay fee 1000, pool size 1, no `minTxFee`, no `minChange`. -/
def cfgW : BtcConfig := ⟨8, none, 546, 1000, 1, 0, alwaysValid⟩

/-- One confirmed 10000-sat UTXO, one 8000-sat output, flat 1000-sat fee rate. -/
def paramsW : BuildParams :=
  ⟨[⟨"w1", 0, 10000, some 1⟩], [⟨"B", 8000⟩], "CHG", ⟨1000, FeeRateType.Base⟩, false, false⟩

/-- The plan `buildPaymentTx cfgW paramsW` returns. -/
def planW : PaymentPlan :=
  ⟨[⟨"w1", 0, 10000, some 1⟩], [⟨"B", 8000⟩], [⟨"CHG", 1000⟩], 1000, 1000, 8000⟩

/-- Like `cfgW` but with `minChangeSat = 50000`. -/
def cfgC2 : BtcConfig := ⟨8, none, 546, 1000, 1, 50000, alwaysValid⟩

/-- One confirmed 20000-sat UTXO and a 300-sat output (below the 546 dust
threshold), flat 1000-sat fee rate. -/
def paramsC2 : BuildParams :=
  ⟨[⟨"u2", 0, 20000, some 1⟩], [⟨"A", 300⟩], "CHG", ⟨1000, FeeRateType.Base⟩, false, false⟩

/-- The plan `buildPaymentTx cfgC2 paramsC2` returns: the 300-sat external
output is emitted although it is below the dust threshold, and the
loose-change fallback emits an 18700-sat change output although
`minChangeSat = 50000`. -/
def planC2 : PaymentPlan :=
  ⟨[⟨"u2", 0, 20000, some 1⟩], [⟨"A", 300⟩], [⟨"CHG", 18700⟩], 1000, 18700, 300⟩

/-- dust 1, relay fee 100, pool size 3, no `minTxFee`, no `minChange`. -/
def cfgC4 : BtcConfig := ⟨8, none, 1, 100, 3, 0, alwaysValid⟩

/-- One confirmed 1108-sat UTXO and a 1000-sat output, flat 100-sat fee rate:
the total change is 8, the weighted split (weights 1,2,4) keeps shares 2 and 4,
and the loose change is exactly 2 = the surviving change-output count. -/
def paramsC4 : BuildParams :=
  ⟨[⟨"u4", 0, 1108, some 1⟩], [⟨"A", 1000⟩], "CHG", ⟨100, FeeRateType.Base⟩, false, false⟩

/-- The plan `buildPaymentTx cfgC4 paramsC4` returns: the loose change of 2 is
absorbed into the fee (102 = 100 + 2) and the change outputs stay 2 and 4. -/
def planC4 : PaymentPlan :=
  ⟨[⟨"u4", 0, 1108, some 1⟩], [⟨"A", 1000⟩], [⟨"CHG", 2⟩, ⟨"CHG", 4⟩], 102, 6, 1000⟩

/-- dust 546, relay fee 0, pool size 1, `minTxFee` of 1 sat per vbyte. -/
def cfgC5 : BtcConfig := ⟨8, some ⟨1, FeeRateType.BasePerWeight⟩, 546, 0, 1, 0, alwaysValid⟩

/-- Sweep-mode (`useAllUtxos = true`) send of 10000 sat out of a 100000-sat
UTXO with a flat 100-sat desired rate: the fee is estimated once for the
zero-change shape (192 = 1·(10+148+34)), but the plan ends up with one change
output, whose shape has a 226-sat `minTxFee` equivalent. -/
def paramsC5 : BuildParams :=
  ⟨[⟨"u5", 0, 100000, some 1⟩], [⟨"A", 10000⟩], "CHG", ⟨100, FeeRateType.Base⟩, true, false⟩

/-- The plan `buildPaymentTx cfgC5 paramsC5` returns. -/
def planC5 : PaymentPlan :=
  ⟨[⟨"u5", 0, 100000, some 1⟩], [⟨"A", 10000⟩], [⟨"CHG", 89808⟩], 192, 89808, 10000⟩

/-- One confirmed 5000-sat UTXO and a 10000-sat output with a flat 2000-sat
fee rate: an insufficient-funds failure. -/
def paramsC3 : BuildParams :=
  ⟨[⟨"u3", 0, 5000, some 1⟩], [⟨"B", 10000⟩], "CHG", ⟨2000, FeeRateType.Base⟩, false, false⟩

/-- A signed transaction for the broadcast claims. -/
def txSigned : SignedTx := ⟨"TXID", "deadbeef"⟩

/-- A node facade whose `sendTx` succeeds with the same txid. -/
def sendOkSame : String → Except String String := fun _ => Except.ok "TXID"

/-- A node facade whose `sendTx` succeeds with a different txid. -/
def sendOkDiff : String → Except String String := fun _ => Except.ok "OTHER"

/-- A node facade whose `sendTx` reports an already-in-mempool error. -/
def sendDup : String → Except String String :=
  fun _ => Except.error "-27 transaction already in block chain"

/-- A node facade whose `sendTx` fails with a non-`-27` error. -/
def sendFail : String → Except String String :=
  fun _ => Except.error "-26 txn-mempool-conflict"

/-- An outgoing Ripple payment: source `S`, ledger 5, index 3. -/
def txOut7 : RippleTx := ⟨"T1", "S", "D", some 7, none, 5, 3, [("S", [⟨"XRP", "-1.5"⟩])]⟩

/-- An incoming Ripple payment to `D` in the same ledger slot (ledger 5,
index 3). -/
def txIn7 : RippleTx := ⟨"T2", "S2", "D", none, some 9, 5, 3, [("D", [⟨"XRP", "1.5"⟩])]⟩

/-- The activity produced for `txOut7` at address `S`. -/
def actOut7 : BalanceActivity :=
  ⟨.outgoing, "mainnet", "TRX", "XRP", "S", some "7", "-1.5", "T1",
    "000000000005.00000003.00", "HASH", 5, 42⟩

/-- The activity produced for `txIn7` at address `D`. -/
def actIn7 : BalanceActivity :=
  ⟨.incoming, "mainnet", "TRX", "XRP", "D", some "9", "1.5", "T2",
    "000000000005.00000003.01", "HASH", 5, 42⟩

/-! ## Arithmetic and fee-estimate lemmas -/

theorem satSum_nil : satSum [] = 0 := rfl

theorem satSum_cons (o : TxOutput) (l : List TxOutput) :
    satSum (o :: l) = o.satoshis + satSum l := by
  simp [satSum]

theorem utxoSatSum_cons (u : UtxoIn) (l : List UtxoIn) :
    utxoSatSum (u :: l) = u.satoshis + utxoSatSum l := by
  simp [utxoSatSum]

theorem utxoSatSum_append (l1 l2 : List UtxoIn) :
    utxoSatSum (l1 ++ l2) = utxoSatSum l1 + utxoSatSum l2 := by
  simp [utxoSatSum]

theorem satSum_map_add (l : List TxOutput) (e : ℤ) :
    satSum (l.map fun o => ⟨o.address, o.satoshis + e⟩) = satSum l + l.length * e := by
  induction l with
  | nil => simp [satSum]
  | cons o rest ih =>
      simp only [List.map_cons, satSum_cons, ih, List.length_cons]
      push_cast
      ring

theorem satSum_map_sub (l : List TxOutput) (e : ℤ) :
    satSum (l.map fun o => ⟨o.address, o.satoshis - e⟩) = satSum l - l.length * e := by
  induction l with
  | nil => simp [satSum]
  | cons o rest ih =>
      simp only [List.map_cons, satSum_cons, ih, List.length_cons]
      push_cast
      ring

theorem ite_lt_eq_max {α : Type} [LinearOrder α] (a c : α) :
    (if a < c then c else a) = max a c := by
  rcases le_or_lt c a with h | h
  · rw [if_neg (not_lt.mpr h), max_eq_left h]
  · rw [if_pos h, max_eq_right h.le]

theorem estimateTxFee_eq_max (cfg : BtcConfig) (r : FeeRate) (ic : ℕ) (cc : ℤ)
    (addrs : List String) :
    estimateTxFee cfg r ic cc addrs =
      ⌈max (match cfg.minTxFee with
            | some m => max (feeRateToSatoshis cfg r ic cc addrs)
                (feeRateToSatoshis cfg m ic cc addrs)
            | none => feeRateToSatoshis cfg r ic cc addrs)
          ((cfg.networkMinRelayFee : ℤ) : ℚ)⌉ := by
  unfold estimateTxFee
  rcases hm : cfg.minTxFee with _ | m <;> simp only [hm, ite_lt_eq_max]

theorem relay_le_estimateTxFee (cfg : BtcConfig) (r : FeeRate) (ic : ℕ) (cc : ℤ)
    (addrs : List String) :
    cfg.networkMinRelayFee ≤ estimateTxFee cfg r ic cc addrs := by
  rw [estimateTxFee_eq_max]
  calc (cfg.networkMinRelayFee : ℤ) = ⌈((cfg.networkMinRelayFee : ℤ) : ℚ)⌉ :=
        (Int.ceil_intCast _).symm
    _ ≤ _ := Int.ceil_le_ceil (le_max_right _ _)

theorem minTx_le_estimateTxFee (cfg : BtcConfig) (r : FeeRate) (ic : ℕ) (cc : ℤ)
    (addrs : List String) (m : FeeRate) (hm : cfg.minTxFee = some m) :
    feeRateToSatoshis cfg m ic cc addrs ≤ ((estimateTxFee cfg r ic cc addrs : ℤ) : ℚ) := by
  rw [estimateTxFee_eq_max, hm]
  refine le_trans (le_max_of_le_left (le_max_right _ _)) (Int.le_ceil _)

theorem estimateTxSize_mono (ic : ℕ) (addrs : List String) {cc cc' : ℤ} (h : cc ≤ cc') :
    estimateTxSize ic cc addrs ≤ estimateTxSize ic cc' addrs := by
  unfold estimateTxSize
  linarith

theorem feeRateToSatoshis_mono (cfg : BtcConfig) (fr : FeeRate) (ic : ℕ)
    (addrs : List String) {cc cc' : ℤ} (hr : 0 ≤ fr.feeRate) (h : cc ≤ cc') :
    feeRateToSatoshis cfg fr ic cc addrs ≤ feeRateToSatoshis cfg fr ic cc' addrs := by
  obtain ⟨rate, ty⟩ := fr
  have hr' : 0 ≤ rate := hr
  cases ty <;> simp only [feeRateToSatoshis]
  · exact mul_le_mul_of_nonneg_left (by exact_mod_cast estimateTxSize_mono ic addrs h) hr'
  · exact le_refl _
  · exact le_refl _

theorem estimateTxFee_mono (cfg : BtcConfig) (r : FeeRate) (ic : ℕ) (addrs : List String)
    {cc cc' : ℤ} (hr : 0 ≤ r.feeRate)
    (hm : ∀ m, cfg.minTxFee = some m → 0 ≤ m.feeRate) (h : cc ≤ cc') :
    estimateTxFee cfg r ic cc addrs ≤ estimateTxFee cfg r ic cc' addrs := by
  rw [estimateTxFee_eq_max, estimateTxFee_eq_max]
  apply Int.ceil_le_ceil
  apply max_le_max _ (le_refl _)
  rcases hmt : cfg.minTxFee with _ | m <;> simp only
  · exact feeRateToSatoshis_mono cfg r ic addrs hr h
  · exact max_le_max (feeRateToSatoshis_mono cfg r ic addrs hr h)
      (feeRateToSatoshis_mono cfg m ic addrs (hm m hmt) h)

theorem intCeilDiv_nonneg {a : ℤ} (ha : 0 ≤ a) (b : ℕ) : 0 ≤ intCeilDiv a b := by
  unfold intCeilDiv
  have hb : (0 : ℤ) ≤ (b : ℤ) := Int.natCast_nonneg b
  rw [Int.fdiv_eq_ediv _ hb]
  rcases Nat.eq_zero_or_pos b with h0 | h0
  · subst h0
    simp
  · have hb' : (0 : ℤ) < (b : ℤ) := by exact_mod_cast h0
    have h1 : (-a) / (b : ℤ) ≤ 0 / (b : ℤ) := Int.ediv_le_ediv hb' (by linarith)
    rw [Int.zero_ediv] at h1
    linarith

theorem le_intCeilDiv_mul {a : ℤ} {b : ℕ} (hb : 0 < b) :
    a ≤ intCeilDiv a b * (b : ℤ) := by
  unfold intCeilDiv
  have hb' : (0 : ℤ) < (b : ℤ) := by exact_mod_cast hb
  rw [Int.fdiv_eq_ediv _ hb'.le]
  have h1 : (-a) / (b : ℤ) * (b : ℤ) ≤ -a := Int.ediv_mul_le (-a) (ne_of_gt hb')
  rw [neg_mul]
  linarith

theorem fdiv_mul_le_self {a : ℤ} {b : ℕ} (hb : 0 < b) :
    Int.fdiv a (b : ℤ) * (b : ℤ) ≤ a := by
  have hb' : (0 : ℤ) < (b : ℤ) := by exact_mod_cast hb
  rw [Int.fdiv_eq_ediv _ hb'.le]
  exact Int.ediv_mul_le a (ne_of_gt hb')

theorem fdiv_share_le {t w wt : ℤ} (ht : 0 ≤ t) (hw : 0 < w) (hwW : w ≤ wt) :
    Int.fdiv (t * w) wt ≤ t := by
  have hW : 0 < wt := lt_of_lt_of_le hw hwW
  rw [Int.fdiv_eq_ediv _ hW.le]
  calc t * w / wt ≤ t * wt / wt := Int.ediv_le_ediv hW (mul_le_mul_of_nonneg_left hwW ht)
    _ = t := Int.mul_ediv_cancel t (ne_of_gt hW)

/-! ## Stage lemmas: validation and the sweep fee adjustment -/

theorem validateOutputs_ok (cfg : BtcConfig) :
    ∀ (l : List TxOutput) (i : ℕ) (t : ℤ), validateOutputs cfg l i = .ok t →
      t = satSum l ∧ ∀ o ∈ l, 0 < o.satoshis ∧ cfg.validAddress o.address = true := by
  intro l
  induction l with
  | nil =>
      intro i t h
      simp only [validateOutputs] at h
      injection h with h
      subst h
      exact ⟨rfl, by simp⟩
  | cons o rest ih =>
      intro i t h
      simp only [validateOutputs] at h
      split at h
      · exact Except.noConfusion h
      · rename_i hvalid
        split at h
        · exact Except.noConfusion h
        · rename_i hpos
          split at h
          · exact Except.noConfusion h
          · rename_i total heq
            injection h with h
            obtain ⟨ht, hrest⟩ := ih (i + 1) total heq
            constructor
            · rw [← h, ht, satSum_cons]
            · intro o' ho'
              rcases List.mem_cons.mp ho' with rfl | hmem
              · refine ⟨lt_of_not_le hpos, ?_⟩
                cases hb : cfg.validAddress o'.address
                · exact absurd hb hvalid
                · rfl
              · exact hrest o' hmem

theorem subtractFeeShare_ok (cfg : BtcConfig) (fs : ℤ) :
    ∀ (l : List TxOutput) (i : ℕ) (l2 : List TxOutput),
      subtractFeeShare cfg fs l i = .ok l2 →
      l2 = l.map (fun o => ⟨o.address, o.satoshis - fs⟩) ∧
      ∀ o ∈ l2, cfg.dustThreshold < o.satoshis := by
  intro l
  induction l with
  | nil =>
      intro i l2 h
      simp only [subtractFeeShare] at h
      injection h with h
      subst h
      exact ⟨rfl, by simp⟩
  | cons o rest ih =>
      intro i l2 h
      simp only [subtractFeeShare] at h
      split at h
      · exact Except.noConfusion h
      · rename_i hdust
        split at h
        · exact Except.noConfusion h
        · rename_i rest2 heq
          injection h with h
          obtain ⟨hmap, hd⟩ := ih (i + 1) rest2 heq
          constructor
          · rw [← h, hmap, List.map_cons]
          · intro o' ho'
            rw [← h] at ho'
            rcases List.mem_cons.mp ho' with rfl | hmem
            · exact lt_of_not_le hdust
            · exact hd o' hmem

theorem subtractFeeShare_error_shape (cfg : BtcConfig) (fs : ℤ) :
    ∀ (l : List TxOutput) (i : ℕ) (e : BuildError),
      subtractFeeShare cfg fs l i = .error e →
      ∃ j v, e = .dustOutput j v fs ∧ v ≤ cfg.dustThreshold ∧
        ∃ o ∈ l, v = o.satoshis - fs := by
  intro l
  induction l with
  | nil =>
      intro i e h
      simp only [subtractFeeShare] at h
      exact Except.noConfusion h
  | cons o rest ih =>
      intro i e h
      simp only [subtractFeeShare] at h
      split at h
      · rename_i hdust
        injection h with h
        exact ⟨i, o.satoshis - fs, h.symm, hdust, o, List.mem_cons_self o rest, rfl⟩
      · rename_i hnd
        split at h
        · rename_i e2 heq
          injection h with h
          obtain ⟨j, v, he, hv, o2, ho2, hval⟩ := ih (i + 1) e2 heq
          exact ⟨j, v, h ▸ he, hv, o2, List.mem_cons_of_mem o ho2, hval⟩
        · exact Except.noConfusion h

theorem subtractFeeShare_error_exists (cfg : BtcConfig) (fs : ℤ) :
    ∀ (l : List TxOutput) (i : ℕ),
      (∃ o ∈ l, o.satoshis - fs ≤ cfg.dustThreshold) →
      ∃ j v, subtractFeeShare cfg fs l i = .error (.dustOutput j v fs) := by
  intro l
  induction l with
  | nil =>
      intro i h
      obtain ⟨o, ho, _⟩ := h
      exact absurd ho (List.not_mem_nil o)
  | cons o rest ih =>
      intro i h
      simp only [subtractFeeShare]
      split
      · exact ⟨i, o.satoshis - fs, rfl⟩
      · rename_i hnd
        obtain ⟨o2, ho2, hle⟩ := h
        rcases List.mem_cons.mp ho2 with rfl | hmem
        · exact absurd hle hnd
        · obtain ⟨j, v, heq⟩ := ih (i + 1) ⟨o2, hmem, hle⟩
          rw [heq]
          exact ⟨j, v, rfl⟩

theorem applyFeeAdjustment_ok (cfg : BtcConfig) (exts : List TxOutput)
    (extTotal feeSat inputTotal : ℤ) (adj : List TxOutput × ℤ × ℤ)
    (h : applyFeeAdjustment cfg exts extTotal feeSat inputTotal = .ok adj) :
    (extTotal + feeSat ≤ inputTotal ∧ adj = (exts, extTotal, feeSat)) ∨
    (inputTotal < extTotal + feeSat ∧ extTotal = inputTotal ∧
      adj.1 = exts.map (fun o => ⟨o.address, o.satoshis - intCeilDiv feeSat exts.length⟩) ∧
      adj.2.2 = intCeilDiv feeSat exts.length * (exts.length : ℤ) ∧
      adj.2.1 = extTotal - adj.2.2 ∧
      ∀ o ∈ adj.1, cfg.dustThreshold < o.satoshis) := by
  simp only [applyFeeAdjustment] at h
  split at h
  · rename_i hlt
    split at h
    · rename_i hswp
      split at h
      · exact Except.noConfusion h
      · rename_i exts2 heq
        injection h with h
        obtain ⟨hmap, hdust⟩ := subtractFeeShare_ok cfg _ exts 0 exts2 heq
        right
        refine ⟨hlt, hswp, ?_, ?_, ?_, ?_⟩
        · rw [← h, hmap]
        · rw [← h]
        · rw [← h]
        · intro o ho
          rw [← h] at ho
          exact hdust o ho
    · exact Except.noConfusion h
  · rename_i hge
    injection h with h
    exact Or.inl ⟨not_lt.mp hge, h.symm⟩

/-! ## Stage lemmas: weighted change split -/

theorem createWeightedChangeOutputs_length (k : ℤ) (addr : String) :
    (createWeightedChangeOutputs k addr).length = k.toNat := by
  simp [createWeightedChangeOutputs]

theorem createWeightedChangeOutputs_mem (k : ℤ) (addr : String) :
    ∀ w ∈ createWeightedChangeOutputs k addr,
      0 < w.weight ∧ w.weight ≤ weightSum (createWeightedChangeOutputs k addr) ∧
      w.address = addr := by
  intro w hw
  obtain ⟨i, _, rfl⟩ := List.mem_map.mp hw
  refine ⟨by positivity, ?_, rfl⟩
  unfold weightSum
  apply List.single_le_sum
  · intro x hx
    obtain ⟨w2, hw2, rfl⟩ := List.mem_map.mp hx
    obtain ⟨j, _, rfl⟩ := List.mem_map.mp hw2
    positivity
  · exact List.mem_map_of_mem WeightedChangeOutput.weight hw

theorem weightedSplit_spec (cfg : BtcConfig) (t wt : ℤ) :
    ∀ ws : List WeightedChangeOutput,
      (weightedSplit cfg t wt ws).2 = satSum (weightedSplit cfg t wt ws).1 ∧
      (weightedSplit cfg t wt ws).1.length ≤ ws.length ∧
      ∀ o ∈ (weightedSplit cfg t wt ws).1,
        cfg.dustThreshold < o.satoshis ∧ cfg.minChangeSat ≤ o.satoshis ∧
        ∃ w ∈ ws, o.address = w.address ∧ o.satoshis = Int.fdiv (t * w.weight) wt := by
  intro ws
  induction ws with
  | nil => exact ⟨rfl, le_refl _, by simp [weightedSplit]⟩
  | cons w rest ih =>
      obtain ⟨ih1, ih2, ih3⟩ := ih
      simp only [weightedSplit]
      split
      · refine ⟨ih1, le_trans ih2 (Nat.le_succ _), fun o ho => ?_⟩
        obtain ⟨h1, h2, w2, hw2, ha, hs⟩ := ih3 o ho
        exact ⟨h1, h2, w2, List.mem_cons_of_mem w hw2, ha, hs⟩
      · rename_i hkeep
        push_neg at hkeep
        refine ⟨by simp only [satSum_cons, ih1], by simpa using Nat.succ_le_succ ih2, ?_⟩
        intro o ho
        rcases List.mem_cons.mp ho with rfl | hmem
        · exact ⟨hkeep.1, hkeep.2, w, List.mem_cons_self w rest, rfl, rfl⟩
        · obtain ⟨h1, h2, w2, hw2, ha, hs⟩ := ih3 o hmem
          exact ⟨h1, h2, w2, List.mem_cons_of_mem w hw2, ha, hs⟩

theorem weightedSplit_nil_of_small (cfg : BtcConfig) (t wt : ℤ)
    (ht : 0 ≤ t) (htd : t ≤ cfg.dustThreshold) :
    ∀ ws : List WeightedChangeOutput,
      (∀ w ∈ ws, 0 < w.weight ∧ w.weight ≤ wt) →
      weightedSplit cfg t wt ws = ([], 0) := by
  intro ws
  induction ws with
  | nil => exact fun _ => rfl
  | cons w rest ih =>
      intro hw
      have hshare : Int.fdiv (t * w.weight) wt ≤ cfg.dustThreshold :=
        le_trans (fdiv_share_le ht (hw w (List.mem_cons_self w rest)).1
          (hw w (List.mem_cons_self w rest)).2) htd
      simp only [weightedSplit]
      rw [if_pos (Or.inl hshare)]
      exact ih (fun w2 hw2 => hw w2 (List.mem_cons_of_mem w hw2))

/-! ## Stage lemmas: loose-change reconciliation -/

theorem redistributeLoose_ok (cfg : BtcConfig) (chAddr : String) (chgs : List TxOutput)
    (loose fee tc : ℤ) (r : List TxOutput × ℤ × ℤ)
    (h : redistributeLoose cfg chAddr chgs loose fee tc = .ok r)
    (hinv : tc = satSum chgs + loose)
    (hd : ∀ o ∈ chgs, cfg.dustThreshold < o.satoshis) :
    0 ≤ loose ∧
    r.2.2 = satSum r.1 ∧
    r.2.1 + r.2.2 = fee + tc ∧
    (∀ o ∈ r.1, cfg.dustThreshold < o.satoshis) ∧
    fee ≤ r.2.1 ∧
    r.1.length ≤ max 1 chgs.length := by
  unfold redistributeLoose at h
  split at h
  · exact Except.noConfusion h
  · rename_i hl0
    have hl : 0 ≤ loose := not_lt.mp hl0
    split at h
    · rename_i hcond
      obtain ⟨hlen, hll⟩ := hcond
      injection h with h
      subst h
      have hlen' : 0 < ((chgs.length : ℕ) : ℤ) := by exact_mod_cast hlen
      set extra := Int.fdiv loose (chgs.length : ℤ) with hex
      have hex0 : 0 ≤ extra := Int.fdiv_nonneg hl hlen'.le
      have hml : extra * (chgs.length : ℤ) ≤ loose := fdiv_mul_le_self hlen
      refine ⟨hl, ?_, by ring, ?_, ?_, ?_⟩
      · show tc - (loose - extra * chgs.length) =
          satSum (chgs.map fun o => ⟨o.address, o.satoshis + extra⟩)
        rw [satSum_map_add, hinv]
        ring
      · intro o ho
        obtain ⟨o0, ho0, rfl⟩ := List.mem_map.mp ho
        have := hd o0 ho0
        dsimp only
        linarith
      · show fee ≤ fee + (loose - extra * chgs.length)
        linarith
      · show (chgs.map fun o => (⟨o.address, o.satoshis + extra⟩ : TxOutput)).length ≤
          max 1 chgs.length
        simp
    · split at h
      · rename_i hcond2
        obtain ⟨hlen0, hdl⟩ := hcond2
        injection h with h
        subst h
        have hchgs : chgs = [] := List.length_eq_zero.mp hlen0
        subst hchgs
        refine ⟨hl, ?_, by ring, ?_, le_refl _, by simp⟩
        · show tc = satSum [⟨chAddr, loose⟩]
          rw [hinv]
          simp [satSum]
        · intro o ho
          rcases List.mem_cons.mp ho with rfl | hmem
          · exact hdl
          · exact absurd hmem (List.not_mem_nil o)
      · injection h with h
        subst h
        refine ⟨hl, ?_, by ring, hd, ?_, le_max_right 1 chgs.length⟩
        · show tc - loose = satSum chgs
          rw [hinv]
          ring
        · show fee ≤ fee + loose
          linarith

theorem changeHandling_ok (cfg : BtcConfig) (chAddr : String) (rate : FeeRate)
    (addrs : List String) (uc ic : ℕ) (t f : ℤ) (r : List TxOutput × ℤ × ℤ)
    (h : changeHandling cfg chAddr rate addrs uc ic t f = .ok r) :
    0 ≤ t ∧
    r.2.2 = satSum r.1 ∧
    r.2.1 + r.2.2 = f + t ∧
    (∀ o ∈ r.1, cfg.dustThreshold < o.satoshis) ∧
    (∃ k : ℕ, r.1.length ≤ max 1 k ∧
      k ≤ (determineTargetChangeOutputCount cfg uc ic).toNat ∧
      min f (estimateTxFee cfg rate ic (if k = 0 then 1 else (k : ℤ)) addrs) ≤ r.2.1) := by
  simp only [changeHandling] at h
  split at h
  · exact Except.noConfusion h
  · rename_i ht0
    have ht : 0 ≤ t := not_lt.mp ht0
    obtain ⟨hsp1, hsp2, hsp3⟩ := weightedSplit_spec cfg t
      (weightSum (createWeightedChangeOutputs
        (determineTargetChangeOutputCount cfg uc ic) chAddr))
      (createWeightedChangeOutputs (determineTargetChangeOutputCount cfg uc ic) chAddr)
    set tcc := determineTargetChangeOutputCount cfg uc ic with htcc
    set ws := createWeightedChangeOutputs tcc chAddr with hws
    set sp := weightedSplit cfg t (weightSum ws) ws with hsp
    have hdsp : ∀ o ∈ sp.1, cfg.dustThreshold < o.satoshis := fun o ho => (hsp3 o ho).1
    have hksp : sp.1.length ≤ tcc.toNat := by
      calc sp.1.length ≤ ws.length := hsp2
        _ = tcc.toNat := createWeightedChangeOutputs_length tcc chAddr
    have hinv0 : t = satSum sp.1 + (t - sp.2) := by rw [← hsp1]; ring
    refine ⟨ht, ?_⟩
    split at h
    · rename_i hk0
      split at h
      · rename_i hrc
        obtain ⟨_, hr2, hr3, hr4, hr5, hr6⟩ := redistributeLoose_ok cfg chAddr sp.1
          _ _ _ r h (by rw [← hsp1]; ring) hdsp
        refine ⟨hr2, by linarith, hr4, sp.1.length, hr6, hksp, ?_⟩
        rw [hk0]
        simp only [if_pos rfl]
        exact le_trans (min_le_right _ _) hr5
      · rename_i hrc
        obtain ⟨_, hr2, hr3, hr4, hr5, hr6⟩ := redistributeLoose_ok cfg chAddr sp.1
          _ _ _ r h hinv0 hdsp
        refine ⟨hr2, by linarith, hr4, sp.1.length, hr6, hksp, ?_⟩
        rw [hk0]
        simp only [if_pos rfl]
        exact le_trans (min_le_left _ _) hr5
    · rename_i hk0
      split at h
      · rename_i hrc
        obtain ⟨_, hr2, hr3, hr4, hr5, hr6⟩ := redistributeLoose_ok cfg chAddr sp.1
          _ _ _ r h (by rw [← hsp1]; ring) hdsp
        refine ⟨hr2, by linarith, hr4, sp.1.length, hr6, hksp, ?_⟩
        rw [if_neg hk0]
        exact le_trans (min_le_right _ _) hr5
      · rename_i hrc
        obtain ⟨_, hr2, hr3, hr4, hr5, hr6⟩ := redistributeLoose_ok cfg chAddr sp.1
          _ _ _ r h hinv0 hdsp
        refine ⟨hr2, by linarith, hr4, sp.1.length, hr6, hksp, ?_⟩
        rw [if_neg hk0]
        exact le_trans (min_le_left _ _) hr5

theorem changeHandling_small (cfg : BtcConfig) (chAddr : String) (rate : FeeRate)
    (addrs : List String) (uc ic : ℕ) (t f : ℤ)
    (ht : 0 ≤ t) (htd : t ≤ cfg.dustThreshold)
    (hf : f ≤ estimateTxFee cfg rate ic 1 addrs) :
    changeHandling cfg chAddr rate addrs uc ic t f = .ok ([], f + t, 0) := by
  have hnil : weightedSplit cfg t
      (weightSum (createWeightedChangeOutputs
        (determineTargetChangeOutputCount cfg uc ic) chAddr))
      (createWeightedChangeOutputs (determineTargetChangeOutputCount cfg uc ic) chAddr)
      = ([], 0) := by
    apply weightedSplit_nil_of_small cfg _ _ ht htd
    intro w hw
    exact ⟨(createWeightedChangeOutputs_mem _ chAddr w hw).1,
      (createWeightedChangeOutputs_mem _ chAddr w hw).2.1⟩
  simp only [changeHandling, hnil]
  rw [if_neg (not_lt.mpr ht)]
  norm_num
  rw [if_neg (not_lt.mpr hf)]
  unfold redistributeLoose
  rw [if_neg (not_lt.mpr ht)]
  rw [if_neg (by simp)]
  rw [if_neg (by
    intro hc
    exact absurd hc.2 (not_lt.mpr htd))]
  rw [sub_self]

/-! ## Stage lemmas: input selection -/

theorem mem_insertSorted (x : UtxoIn) :
    ∀ (l : List UtxoIn) (y : UtxoIn), y ∈ insertSorted x l → y = x ∨ y ∈ l := by
  intro l
  induction l with
  | nil =>
      intro y hy
      simp only [insertSorted] at hy
      exact Or.inl (List.mem_singleton.mp hy)
  | cons z zs ih =>
      intro y hy
      simp only [insertSorted] at hy
      split at hy
      · rcases List.mem_cons.mp hy with rfl | hmem
        · exact Or.inl rfl
        · exact Or.inr hmem
      · rcases List.mem_cons.mp hy with rfl | hmem
        · exact Or.inr (List.mem_cons_self _ _)
        · rcases ih y hmem with h1 | h1
          · exact Or.inl h1
          · exact Or.inr (List.mem_cons_of_mem z h1)

theorem mem_sortUtxos : ∀ (l : List UtxoIn) (y : UtxoIn), y ∈ sortUtxos l → y ∈ l := by
  intro l
  induction l with
  | nil => intro y hy; exact absurd hy (List.not_mem_nil y)
  | cons z zs ih =>
      intro y hy
      simp only [sortUtxos] at hy
      rcases mem_insertSorted z (sortUtxos zs) y hy with rfl | hmem
      · exact List.mem_cons_self _ _
      · exact List.mem_cons_of_mem z (ih y hmem)

theorem accumulateUtxos_spec (cfg : BtcConfig) (rate : FeeRate) (outT : ℤ)
    (addrs : List String) (uc : ℕ) :
    ∀ (rest sel : List UtxoIn) (st fs : ℤ), st = utxoSatSum sel →
      (accumulateUtxos cfg rate outT addrs uc sel st fs rest).selectedTotalSat =
        utxoSatSum (accumulateUtxos cfg rate outT addrs uc sel st fs rest).selectedUtxos ∧
      (∀ u ∈ (accumulateUtxos cfg rate outT addrs uc sel st fs rest).selectedUtxos,
        u ∈ sel ∨ u ∈ rest) ∧
      (accumulateUtxos cfg rate outT addrs uc sel st fs rest = ⟨sel, st, fs⟩ ∨
        (accumulateUtxos cfg rate outT addrs uc sel st fs rest).feeSat =
          estimateTxFee cfg rate
            (accumulateUtxos cfg rate outT addrs uc sel st fs rest).selectedUtxos.length
            (determineTargetChangeOutputCount cfg uc
              (accumulateUtxos cfg rate outT addrs uc sel st fs rest).selectedUtxos.length)
            addrs) := by
  intro rest
  induction rest with
  | nil =>
      intro sel st fs hst
      refine ⟨hst, fun u hu => Or.inl hu, Or.inl rfl⟩
  | cons u rest ih =>
      intro sel st fs hst
      simp only [accumulateUtxos]
      have hst2 : st + u.satoshis = utxoSatSum (sel ++ [u]) := by
        rw [utxoSatSum_append, hst]
        simp [utxoSatSum]
      split
      · refine ⟨hst2, ?_, Or.inr rfl⟩
        intro y hy
        rcases List.mem_append.mp hy with h1 | h1
        · exact Or.inl h1
        · exact Or.inr (List.mem_cons.mpr (Or.inl (List.mem_singleton.mp h1)))
      · obtain ⟨ih1, ih2, ih3⟩ := ih (sel ++ [u]) (st + u.satoshis) _ hst2
        refine ⟨ih1, ?_, ?_⟩
        · intro y hy
          rcases ih2 y hy with h1 | h1
          · rcases List.mem_append.mp h1 with h2 | h2
            · exact Or.inl h2
            · exact Or.inr (List.mem_cons.mpr (Or.inl (List.mem_singleton.mp h2)))
          · exact Or.inr (List.mem_cons_of_mem u h1)
        · rcases ih3 with h1 | h1
          · right
            rw [h1]
          · exact Or.inr h1

theorem selectInputUtxos_basic (cfg : BtcConfig) (unus : List UtxoIn) (outT : ℤ)
    (addrs : List String) (rate : FeeRate) (uA uU : Bool) :
    (selectInputUtxos cfg unus outT addrs rate uA uU).selectedTotalSat =
      utxoSatSum (selectInputUtxos cfg unus outT addrs rate uA uU).selectedUtxos ∧
    ∀ u ∈ (selectInputUtxos cfg unus outT addrs rate uA uU).selectedUtxos, u ∈ unus := by
  simp only [selectInputUtxos]
  split
  · exact ⟨rfl, fun u hu => (List.mem_filter.mp hu).1⟩
  · split
    · rename_i u heq
      refine ⟨by simp [utxoSatSum], ?_⟩
      intro y hy
      rw [List.mem_singleton.mp hy]
      exact (List.mem_filter.mp (List.mem_of_find?_eq_some heq)).1
    · rename_i heq
      obtain ⟨h1, h2, _⟩ := accumulateUtxos_spec cfg rate outT addrs unus.length
        (sortUtxos (unus.filter fun u => uU || isConfirmedUtxo u)) [] 0 0 rfl
      refine ⟨h1, ?_⟩
      intro y hy
      rcases h2 y hy with h3 | h3
      · exact absurd h3 (List.not_mem_nil y)
      · exact (List.mem_filter.mp (mem_sortUtxos _ y h3)).1

theorem selectInputUtxos_fee_sweep (cfg : BtcConfig) (unus : List UtxoIn) (outT : ℤ)
    (addrs : List String) (rate : FeeRate) (uU : Bool) :
    (selectInputUtxos cfg unus outT addrs rate true uU).feeSat =
      estimateTxFee cfg rate
        (selectInputUtxos cfg unus outT addrs rate true uU).selectedUtxos.length 0 addrs := by
  simp only [selectInputUtxos]
  rfl

theorem selectInputUtxos_fee_cases (cfg : BtcConfig) (unus : List UtxoIn) (outT : ℤ)
    (addrs : List String) (rate : FeeRate) (uU : Bool) :
    selectInputUtxos cfg unus outT addrs rate false uU = ⟨[], 0, 0⟩ ∨
    ((selectInputUtxos cfg unus outT addrs rate false uU).selectedUtxos.length = 1 ∧
      (selectInputUtxos cfg unus outT addrs rate false uU).feeSat =
        estimateTxFee cfg rate 1 0 addrs ∧
      outT + (selectInputUtxos cfg unus outT addrs rate false uU).feeSat ≤
        (selectInputUtxos cfg unus outT addrs rate false uU).selectedTotalSat ∧
      (selectInputUtxos cfg unus outT addrs rate false uU).selectedTotalSat ≤
        outT + (selectInputUtxos cfg unus outT addrs rate false uU).feeSat +
          cfg.dustThreshold) ∨
    (selectInputUtxos cfg unus outT addrs rate false uU).feeSat =
      estimateTxFee cfg rate
        (selectInputUtxos cfg unus outT addrs rate false uU).selectedUtxos.length
        (determineTargetChangeOutputCount cfg unus.length
          (selectInputUtxos cfg unus outT addrs rate false uU).selectedUtxos.length)
        addrs := by
  simp only [selectInputUtxos]
  rw [if_neg (by simp)]
  split
  · rename_i u heq
    have hp := List.find?_some heq
    simp only [Bool.and_eq_true, decide_eq_true_eq] at hp
    right
    left
    exact ⟨rfl, rfl, hp.1, by
      have := hp.2
      dsimp only
      linarith⟩
  · rename_i heq
    obtain ⟨_, _, h3⟩ := accumulateUtxos_spec cfg rate outT addrs unus.length
      (sortUtxos (unus.filter fun u => uU || isConfirmedUtxo u)) [] 0 0 rfl
    rcases h3 with h4 | h4
    · exact Or.inl h4
    · exact Or.inr (Or.inr h4)

/-! ## Composition lemmas for `buildPaymentTx` -/

theorem satSum_nonneg (l : List TxOutput) (h : ∀ o ∈ l, 0 ≤ o.satoshis) : 0 ≤ satSum l := by
  induction l with
  | nil => exact le_refl 0
  | cons o rest ih =>
      rw [satSum_cons]
      have h1 := h o (List.mem_cons_self o rest)
      have h2 := ih (fun o2 ho2 => h o2 (List.mem_cons_of_mem o ho2))
      linarith

theorem utxoSatSum_nonneg (l : List UtxoIn) (h : ∀ u ∈ l, 0 ≤ u.satoshis) :
    0 ≤ utxoSatSum l := by
  induction l with
  | nil => exact le_refl 0
  | cons u rest ih =>
      rw [utxoSatSum_cons]
      have h1 := h u (List.mem_cons_self u rest)
      have h2 := ih (fun u2 hu2 => h u2 (List.mem_cons_of_mem u hu2))
      linarith

theorem buildPaymentTx_ok_elim (cfg : BtcConfig) (p : BuildParams) (plan : PaymentPlan)
    (h : buildPaymentTx cfg p = .ok plan) :
    ∃ (extTotal : ℤ) (adj ch : List TxOutput × ℤ × ℤ),
      validateOutputs cfg p.desiredOutputs 0 = .ok extTotal ∧
      cfg.validAddress p.changeAddress = true ∧
      applyFeeAdjustment cfg p.desiredOutputs extTotal
        (selectInputUtxos cfg p.unusedUtxos extTotal (p.desiredOutputs.map TxOutput.address)
          p.desiredFeeRate p.useAllUtxos p.useUnconfirmedUtxos).feeSat
        (selectInputUtxos cfg p.unusedUtxos extTotal (p.desiredOutputs.map TxOutput.address)
          p.desiredFeeRate p.useAllUtxos p.useUnconfirmedUtxos).selectedTotalSat = .ok adj ∧
      changeHandling cfg p.changeAddress p.desiredFeeRate
        (p.desiredOutputs.map TxOutput.address) p.unusedUtxos.length
        (selectInputUtxos cfg p.unusedUtxos extTotal (p.desiredOutputs.map TxOutput.address)
          p.desiredFeeRate p.useAllUtxos p.useUnconfirmedUtxos).selectedUtxos.length
        ((selectInputUtxos cfg p.unusedUtxos extTotal (p.desiredOutputs.map TxOutput.address)
          p.desiredFeeRate p.useAllUtxos p.useUnconfirmedUtxos).selectedTotalSat -
          adj.2.1 - adj.2.2) adj.2.2 = .ok ch ∧
      plan = ⟨(selectInputUtxos cfg p.unusedUtxos extTotal
          (p.desiredOutputs.map TxOutput.address) p.desiredFeeRate p.useAllUtxos
          p.useUnconfirmedUtxos).selectedUtxos, adj.1, ch.1, ch.2.1, ch.2.2, adj.2.1⟩ := by
  simp only [buildPaymentTx] at h
  split at h
  · exact Except.noConfusion h
  · rename_i extTotal hv
    split at h
    · exact Except.noConfusion h
    · rename_i hca
      split at h
      · exact Except.noConfusion h
      · rename_i adj hafa
        split at h
        · exact Except.noConfusion h
        · rename_i ch hch
          injection h with h
          refine ⟨extTotal, adj, ch, hv, ?_, hafa, hch, h.symm⟩
          cases hb : cfg.validAddress p.changeAddress
          · exact absurd hb hca
          · rfl

theorem selectInputUtxos_fee_nonneg (cfg : BtcConfig) (unus : List UtxoIn) (outT : ℤ)
    (addrs : List String) (rate : FeeRate) (uA uU : Bool)
    (hrelay : 0 ≤ cfg.networkMinRelayFee) :
    0 ≤ (selectInputUtxos cfg unus outT addrs rate uA uU).feeSat := by
  cases uA
  · rcases selectInputUtxos_fee_cases cfg unus outT addrs rate uU with h | ⟨_, hf, _, _⟩ | hf
    · rw [h]
    · rw [hf]
      exact le_trans hrelay (relay_le_estimateTxFee cfg rate 1 0 addrs)
    · rw [hf]
      exact le_trans hrelay (relay_le_estimateTxFee cfg rate _ _ addrs)
  · rw [selectInputUtxos_fee_sweep]
    exact le_trans hrelay (relay_le_estimateTxFee cfg rate _ 0 addrs)

/-- C1: for every plan returned by `buildPaymentTx` (given non-negative
candidate UTXO values, dust threshold, and relay fee), the sum of the selected
input values equals the sum of the external outputs plus the sum of the change
outputs plus the fee, and all of these base-unit values are non-negative
integers. -/
theorem c1_plan_value_conservation (cfg : BtcConfig) (p : BuildParams) (plan : PaymentPlan)
    (hu : ∀ u ∈ p.unusedUtxos, 0 ≤ u.satoshis)
    (hdust : 0 ≤ cfg.dustThreshold)
    (hrelay : 0 ≤ cfg.networkMinRelayFee)
    (h : buildPaymentTx cfg p = .ok plan) :
    utxoSatSum plan.inputs =
      satSum plan.externalOutputs + satSum plan.changeOutputs + plan.feeSat ∧
    0 ≤ plan.feeSat ∧
    0 ≤ satSum plan.externalOutputs ∧
    0 ≤ satSum plan.changeOutputs ∧
    0 ≤ utxoSatSum plan.inputs ∧
    (∀ u ∈ plan.inputs, 0 ≤ u.satoshis) ∧
    (∀ o ∈ plan.externalOutputs, 0 ≤ o.satoshis) ∧
    (∀ o ∈ plan.changeOutputs, 0 ≤ o.satoshis) := by
  obtain ⟨extTotal, adj, ch, hv, hca, hafa, hch, hplan⟩ := buildPaymentTx_ok_elim cfg p plan h
  obtain ⟨hvTot, hvPos⟩ := validateOutputs_ok cfg p.desiredOutputs 0 extTotal hv
  obtain ⟨hselTot, hselMem⟩ := selectInputUtxos_basic cfg p.unusedUtxos extTotal
    (p.desiredOutputs.map TxOutput.address) p.desiredFeeRate p.useAllUtxos p.useUnconfirmedUtxos
  have hfee0 := selectInputUtxos_fee_nonneg cfg p.unusedUtxos extTotal
    (p.desiredOutputs.map TxOutput.address) p.desiredFeeRate p.useAllUtxos
    p.useUnconfirmedUtxos hrelay
  set addrs := p.desiredOutputs.map TxOutput.address with haddrs
  set sel := selectInputUtxos cfg p.unusedUtxos extTotal addrs p.desiredFeeRate
    p.useAllUtxos p.useUnconfirmedUtxos with hsel
  obtain ⟨hT0, hch2, hch3, hch4, k, hk1, hk2, hk3⟩ :=
    changeHandling_ok cfg p.changeAddress p.desiredFeeRate addrs p.unusedUtxos.length
      sel.selectedUtxos.length (sel.selectedTotalSat - adj.2.1 - adj.2.2) adj.2.2 ch hch
  have hextSum : satSum adj.1 = adj.2.1 ∧ 0 ≤ adj.2.2 ∧ ∀ o ∈ adj.1, 0 ≤ o.satoshis := by
    rcases applyFeeAdjustment_ok cfg p.desiredOutputs extTotal sel.feeSat
      sel.selectedTotalSat adj hafa with ⟨hge, hadj⟩ | ⟨hlt, hswp, hmap, hfee2, hext2, hdust2⟩
    · subst hadj
      exact ⟨hvTot.symm, hfee0, fun o ho => le_of_lt (hvPos o ho).1⟩
    · refine ⟨?_, ?_, ?_⟩
      · rw [hmap, satSum_map_sub, hext2, hfee2, ← hvTot]
        ring
      · rw [hfee2]
        exact mul_nonneg (intCeilDiv_nonneg hfee0 _) (Int.natCast_nonneg _)
      · intro o ho
        exact le_trans hdust (le_of_lt (hdust2 o ho))
  have hfeeFinal : 0 ≤ ch.2.1 := by
    have hrc : 0 ≤ estimateTxFee cfg p.desiredFeeRate sel.selectedUtxos.length
        (if k = 0 then 1 else (k : ℤ)) addrs :=
      le_trans hrelay (relay_le_estimateTxFee cfg p.desiredFeeRate _ _ addrs)
    calc (0 : ℤ) ≤ min adj.2.2 (estimateTxFee cfg p.desiredFeeRate sel.selectedUtxos.length
          (if k = 0 then 1 else (k : ℤ)) addrs) := le_min hextSum.2.1 hrc
      _ ≤ ch.2.1 := hk3
  have hext_el : ∀ o ∈ adj.1, 0 ≤ o.satoshis := hextSum.2.2
  have hchg_el : ∀ o ∈ ch.1, 0 ≤ o.satoshis := fun o ho =>
    le_trans hdust (le_of_lt (hch4 o ho))
  have hin_el : ∀ u ∈ sel.selectedUtxos, 0 ≤ u.satoshis := fun u huu => hu u (hselMem u huu)
  subst hplan
  refine ⟨?_, hfeeFinal, satSum_nonneg _ hext_el, satSum_nonneg _ hchg_el,
    utxoSatSum_nonneg _ hin_el, hin_el, hext_el, hchg_el⟩
  show utxoSatSum sel.selectedUtxos = satSum adj.1 + satSum ch.1 + ch.2.1
  rw [← hselTot, hextSum.1, ← hch2]
  linarith

theorem redistributeLoose_error_shape (cfg : BtcConfig) (chAddr : String)
    (chgs : List TxOutput) (loose fee tc : ℤ) (e : BuildError)
    (h : redistributeLoose cfg chAddr chgs loose fee tc = .error e) :
    e = .negativeLooseChange := by
  unfold redistributeLoose at h
  split at h
  · injection h with h
    exact h.symm
  · split at h
    · exact Except.noConfusion h
    · split at h
      · exact Except.noConfusion h
      · exact Except.noConfusion h

theorem changeHandling_error_shape (cfg : BtcConfig) (chAddr : String) (rate : FeeRate)
    (addrs : List String) (uc ic : ℕ) (t f : ℤ) (e : BuildError)
    (h : changeHandling cfg chAddr rate addrs uc ic t f = .error e) :
    e = .negativeChange ∨ e = .negativeLooseChange := by
  simp only [changeHandling] at h
  split at h
  · injection h with h
    exact Or.inl h.symm
  · split at h
    · split at h
      · exact Or.inr (redistributeLoose_error_shape _ _ _ _ _ _ _ h)
      · exact Or.inr (redistributeLoose_error_shape _ _ _ _ _ _ _ h)
    · split at h
      · exact Or.inr (redistributeLoose_error_shape _ _ _ _ _ _ _ h)
      · exact Or.inr (redistributeLoose_error_shape _ _ _ _ _ _ _ h)

theorem buildPaymentTx_unfold (cfg : BtcConfig) (p : BuildParams) (extTotal : ℤ)
    (hv : validateOutputs cfg p.desiredOutputs 0 = .ok extTotal)
    (hca : cfg.validAddress p.changeAddress = true) :
    buildPaymentTx cfg p =
      match applyFeeAdjustment cfg p.desiredOutputs extTotal
        (selectInputUtxos cfg p.unusedUtxos extTotal (p.desiredOutputs.map TxOutput.address)
          p.desiredFeeRate p.useAllUtxos p.useUnconfirmedUtxos).feeSat
        (selectInputUtxos cfg p.unusedUtxos extTotal (p.desiredOutputs.map TxOutput.address)
          p.desiredFeeRate p.useAllUtxos p.useUnconfirmedUtxos).selectedTotalSat with
      | .error e => .error e
      | .ok adj =>
        match changeHandling cfg p.changeAddress p.desiredFeeRate
          (p.desiredOutputs.map TxOutput.address) p.unusedUtxos.length
          (selectInputUtxos cfg p.unusedUtxos extTotal (p.desiredOutputs.map TxOutput.address)
            p.desiredFeeRate p.useAllUtxos p.useUnconfirmedUtxos).selectedUtxos.length
          ((selectInputUtxos cfg p.unusedUtxos extTotal (p.desiredOutputs.map TxOutput.address)
            p.desiredFeeRate p.useAllUtxos p.useUnconfirmedUtxos).selectedTotalSat -
            adj.2.1 - adj.2.2) adj.2.2 with
        | .error e => .error e
        | .ok ch =>
          .ok ⟨(selectInputUtxos cfg p.unusedUtxos extTotal
              (p.desiredOutputs.map TxOutput.address) p.desiredFeeRate p.useAllUtxos
              p.useUnconfirmedUtxos).selectedUtxos, adj.1, ch.1, ch.2.1, ch.2.2, adj.2.1⟩ := by
  simp only [buildPaymentTx, hv, hca]
  rfl

/-- C2 (amended): every change output emitted by `buildPaymentTx` is strictly
above the dust threshold.  (The claim's further conditions fail on the code:
external outputs are not compared to the dust threshold outside the
fee-subtraction sweep, and the loose-change fallback ignores `minChangeSat`;
see the counterexample.) -/
theorem c2_change_outputs_above_dust (cfg : BtcConfig) (p : BuildParams)
    (plan : PaymentPlan) (h : buildPaymentTx cfg p = .ok plan) :
    ∀ o ∈ plan.changeOutputs, cfg.dustThreshold < o.satoshis := by
  obtain ⟨extTotal, adj, ch, hv, hca, hafa, hch, hplan⟩ := buildPaymentTx_ok_elim cfg p plan h
  obtain ⟨_, _, _, hch4, _⟩ := changeHandling_ok _ _ _ _ _ _ _ _ _ hch
  subst hplan
  exact hch4

/-- C2 counterexample: `buildPaymentTx cfgC2 paramsC2` returns a plan whose
external output (300 sat) is **not** above the dust threshold (546), and whose
change output (18700 sat, from the loose-change fallback) is **below**
`minChangeSat = 50000` although `minChangeSat > 0` — refuting the claim that
every emitted output is above the dust threshold and that every change output
respects `minChangeSat`. -/
theorem c2_counterexample :
    buildPaymentTx cfgC2 paramsC2 = Except.ok planC2 ∧
    (⟨"A", 300⟩ : TxOutput) ∈ planC2.externalOutputs ∧
    ¬ cfgC2.dustThreshold < (300 : ℤ) ∧
    0 < cfgC2.minChangeSat ∧
    (⟨"CHG", 18700⟩ : TxOutput) ∈ planC2.changeOutputs ∧
    (18700 : ℤ) < cfgC2.minChangeSat := by decide

theorem buildW_eval : buildPaymentTx cfgW paramsW = Except.ok planW := by decide

theorem c1_witness :
    (∀ u ∈ paramsW.unusedUtxos, 0 ≤ u.satoshis) ∧
    buildPaymentTx cfgW paramsW = Except.ok planW ∧
    utxoSatSum planW.inputs =
      satSum planW.externalOutputs + satSum planW.changeOutputs + planW.feeSat ∧
    0 ≤ planW.feeSat :=
  ⟨by decide, buildW_eval,
    (c1_plan_value_conservation cfgW paramsW planW (by decide) (by decide) (by decide)
      buildW_eval).1,
    (c1_plan_value_conservation cfgW paramsW planW (by decide) (by decide) (by decide)
      buildW_eval).2.1⟩

theorem c2_amended_witness :
    buildPaymentTx cfgW paramsW = Except.ok planW ∧
    ∀ o ∈ planW.changeOutputs, cfgW.dustThreshold < o.satoshis :=
  ⟨buildW_eval, c2_change_outputs_above_dust cfgW paramsW planW buildW_eval⟩

/-- C3: whenever, after input selection, the external output total plus the
estimated fee exceeds the selected input total, `buildPaymentTx` either (a)
fails with the insufficient-funds error carrying the available input total,
the output total, and the fee (whose sum is the required amount), when the
output total differs from the input total; or (b), when the output total
equals the input total exactly, replaces the fee by
`feeShare · externalCount` with `feeShare = ⌈fee / externalCount⌉`, subtracts
`feeShare` from each external output, and fails with a `DustOutput` error
exactly when some resulting external output is at or below the dust
threshold. -/
theorem c3_shortfall_behaviour (cfg : BtcConfig) (p : BuildParams) (extTotal : ℤ)
    (s : SelectResult)
    (hv : validateOutputs cfg p.desiredOutputs 0 = .ok extTotal)
    (hca : cfg.validAddress p.changeAddress = true)
    (hseleq : selectInputUtxos cfg p.unusedUtxos extTotal
      (p.desiredOutputs.map TxOutput.address) p.desiredFeeRate p.useAllUtxos
      p.useUnconfirmedUtxos = s)
    (hshort : s.selectedTotalSat < extTotal + s.feeSat) :
    (extTotal ≠ s.selectedTotalSat →
      buildPaymentTx cfg p =
        .error (.insufficientFunds s.selectedTotalSat extTotal s.feeSat)) ∧
    (extTotal = s.selectedTotalSat →
      ((∃ i v, buildPaymentTx cfg p =
          .error (.dustOutput i v (intCeilDiv s.feeSat p.desiredOutputs.length))) ↔
        (∃ o ∈ p.desiredOutputs,
          o.satoshis - intCeilDiv s.feeSat p.desiredOutputs.length ≤ cfg.dustThreshold)) ∧
      ∀ adj, applyFeeAdjustment cfg p.desiredOutputs extTotal s.feeSat
          s.selectedTotalSat = .ok adj →
        adj.1 = p.desiredOutputs.map
          (fun o => ⟨o.address, o.satoshis - intCeilDiv s.feeSat p.desiredOutputs.length⟩) ∧
        adj.2.2 = intCeilDiv s.feeSat p.desiredOutputs.length * (p.desiredOutputs.length : ℤ) ∧
        adj.2.1 = extTotal - adj.2.2) := by
  have hbuild := buildPaymentTx_unfold cfg p extTotal hv hca
  rw [hseleq] at hbuild
  constructor
  · intro hne
    have hafa : applyFeeAdjustment cfg p.desiredOutputs extTotal s.feeSat
        s.selectedTotalSat = .error (.insufficientFunds s.selectedTotalSat extTotal s.feeSat) := by
      unfold applyFeeAdjustment
      rw [if_pos hshort, if_neg hne]
    rw [hbuild, hafa]
  · intro hsw
    constructor
    · constructor
      · rintro ⟨i, v, hb⟩
        cases hsfs : subtractFeeShare cfg (intCeilDiv s.feeSat p.desiredOutputs.length)
            p.desiredOutputs 0 with
        | error e =>
            obtain ⟨j, v2, he, hv2, o, ho, hval⟩ :=
              subtractFeeShare_error_shape cfg _ p.desiredOutputs 0 e hsfs
            exact ⟨o, ho, hval ▸ hv2⟩
        | ok l2 =>
            have hafa : applyFeeAdjustment cfg p.desiredOutputs extTotal s.feeSat
                s.selectedTotalSat = .ok (l2, extTotal -
                  intCeilDiv s.feeSat p.desiredOutputs.length * p.desiredOutputs.length,
                  intCeilDiv s.feeSat p.desiredOutputs.length * p.desiredOutputs.length) := by
              unfold applyFeeAdjustment
              rw [if_pos hshort, if_pos hsw]
              dsimp only
              rw [hsfs]
            rw [hbuild, hafa] at hb
            dsimp only at hb
            revert hb
            cases hcc : changeHandling cfg p.changeAddress p.desiredFeeRate
                (p.desiredOutputs.map TxOutput.address) p.unusedUtxos.length
                s.selectedUtxos.length
                (s.selectedTotalSat -
                  (extTotal - intCeilDiv s.feeSat p.desiredOutputs.length *
                    p.desiredOutputs.length) -
                  intCeilDiv s.feeSat p.desiredOutputs.length * p.desiredOutputs.length)
                (intCeilDiv s.feeSat p.desiredOutputs.length * p.desiredOutputs.length) with
            | error e =>
                intro hb
                injection hb with hb
                rcases changeHandling_error_shape _ _ _ _ _ _ _ _ _ hcc with h1 | h1 <;>
                  (subst h1; exact BuildError.noConfusion hb)
            | ok ch =>
                intro hb
                exact Except.noConfusion hb
      · rintro ⟨o, ho, hle⟩
        obtain ⟨j, v, hsfs⟩ := subtractFeeShare_error_exists cfg
          (intCeilDiv s.feeSat p.desiredOutputs.length) p.desiredOutputs 0 ⟨o, ho, hle⟩
        have hafa : applyFeeAdjustment cfg p.desiredOutputs extTotal s.feeSat
            s.selectedTotalSat =
            .error (.dustOutput j v (intCeilDiv s.feeSat p.desiredOutputs.length)) := by
          unfold applyFeeAdjustment
          rw [if_pos hshort, if_pos hsw]
          dsimp only
          rw [hsfs]
        exact ⟨j, v, by rw [hbuild, hafa]⟩
    · intro adj hafa
      rcases applyFeeAdjustment_ok cfg p.desiredOutputs extTotal s.feeSat
        s.selectedTotalSat adj hafa with ⟨hge, _⟩ | ⟨_, _, hmap, hfee2, hext2, _⟩
      · exact absurd hge (not_le.mpr hshort)
      · exact ⟨hmap, hfee2, hext2⟩

theorem c3_witness :
    validateOutputs cfgW paramsC3.desiredOutputs 0 = Except.ok 10000 ∧
    buildPaymentTx cfgW paramsC3 =
      Except.error (.insufficientFunds 5000 10000 2000) := by
  have hv : validateOutputs cfgW paramsC3.desiredOutputs 0 = Except.ok 10000 := by decide
  have hs : selectInputUtxos cfgW paramsC3.unusedUtxos 10000
      (paramsC3.desiredOutputs.map TxOutput.address) paramsC3.desiredFeeRate
      paramsC3.useAllUtxos paramsC3.useUnconfirmedUtxos =
      ⟨[⟨"u3", 0, 5000, some 1⟩], 5000, 2000⟩ := by decide
  exact ⟨hv, (c3_shortfall_behaviour cfgW paramsC3 10000 _ hv (by decide) hs
    (by decide)).1 (by decide)⟩

/-- C4 (amended): in the loose-change reconciliation, when at least one change
output survived and the loose change is **strictly greater** than the number
of surviving change outputs (the source tests `loose / changeCount > 1`),
`⌊loose / changeCount⌋` is added to each surviving change output and only the
residue `loose % changeCount` is absorbed into the fee; when the loose change
equals the change-output count exactly, nothing is redistributed and the whole
loose change is absorbed into the fee. -/
theorem c4_loose_change_redistribution (cfg : BtcConfig) (chAddr : String)
    (chgs : List TxOutput) (loose fee tc : ℤ)
    (hne : chgs ≠ []) (hge : (chgs.length : ℤ) ≤ loose) :
    ((chgs.length : ℤ) < loose →
      redistributeLoose cfg chAddr chgs loose fee tc =
        .ok (chgs.map (fun o => ⟨o.address, o.satoshis + loose / (chgs.length : ℤ)⟩),
          fee + loose % (chgs.length : ℤ), tc - loose % (chgs.length : ℤ))) ∧
    ((chgs.length : ℤ) = loose →
      redistributeLoose cfg chAddr chgs loose fee tc =
        .ok (chgs, fee + loose, tc - loose)) := by
  have hlen : 0 < chgs.length := List.length_pos.mpr hne
  have hlen' : (0 : ℤ) < (chgs.length : ℤ) := by exact_mod_cast hlen
  have hl0 : ¬ loose < 0 := not_lt.mpr (le_trans hlen'.le hge)
  constructor
  · intro hlt
    unfold redistributeLoose
    rw [if_neg hl0, if_pos ⟨hlen, hlt⟩]
    have hfd : Int.fdiv loose (chgs.length : ℤ) = loose / (chgs.length : ℤ) :=
      Int.fdiv_eq_ediv loose hlen'.le
    rw [hfd]
    dsimp only
    have hmod : loose - loose / (chgs.length : ℤ) * (chgs.length : ℤ) =
        loose % (chgs.length : ℤ) := by
      rw [Int.emod_def]
      ring
    rw [hmod]
  · intro heq
    unfold redistributeLoose
    rw [if_neg hl0, if_neg (fun hc => absurd hc.2 (not_lt.mpr (le_of_eq heq.symm))),
      if_neg (fun hc => absurd hc.1 (Nat.pos_iff_ne_zero.mp hlen))]

theorem satSum_pos (l : List TxOutput) (hne : l ≠ []) (h : ∀ o ∈ l, 0 < o.satoshis) :
    0 < satSum l := by
  cases l with
  | nil => exact absurd rfl hne
  | cons o rest =>
      rw [satSum_cons]
      have h1 := h o (List.mem_cons_self o rest)
      have h2 := satSum_nonneg rest (fun o2 ho2 =>
        le_of_lt (h o2 (List.mem_cons_of_mem o ho2)))
      linarith

theorem determineTargetChangeOutputCount_ge_one (cfg : BtcConfig) (uc ic : ℕ) :
    1 ≤ determineTargetChangeOutputCount cfg uc ic := by
  simp only [determineTargetChangeOutputCount]
  split
  · rename_i hr
    linarith
  · exact le_refl 1

theorem max_one_cast (k : ℕ) : ((max 1 k : ℕ) : ℤ) = (if k = 0 then 1 else (k : ℤ)) := by
  cases k with
  | zero => simp
  | succ n => simp [Nat.max_eq_right (Nat.succ_le_succ (Nat.zero_le n))]

/-- C5 (amended): for every plan returned by `buildPaymentTx` (non-empty
desired outputs, non-negative fee rates and relay fee), the final fee is at
least `networkMinRelayFee`; and in targeted
mode (`useAllUtxos = false`), when `minTxFee` is configured the final fee is
also at least the base-unit equivalent of `minTxFee` for the plan's shape
(its input count and change-output count).  In sweep mode the fee is only
guaranteed to clear the `minTxFee` equivalent of the zero-change shape it was
estimated for, which the counterexample shows can be below the equivalent for
the plan's actual shape. -/
theorem c5_fee_bounds (cfg : BtcConfig) (p : BuildParams) (plan : PaymentPlan)
    (houts : p.desiredOutputs ≠ [])
    (hrate : 0 ≤ p.desiredFeeRate.feeRate)
    (hminr : ∀ m, cfg.minTxFee = some m → 0 ≤ m.feeRate)
    (hrelay : 0 ≤ cfg.networkMinRelayFee)
    (h : buildPaymentTx cfg p = .ok plan) :
    cfg.networkMinRelayFee ≤ plan.feeSat ∧
    (p.useAllUtxos = false → ∀ m, cfg.minTxFee = some m →
      feeRateToSatoshis cfg m plan.inputs.length (plan.changeOutputs.length : ℤ)
        (p.desiredOutputs.map TxOutput.address) ≤ ((plan.feeSat : ℤ) : ℚ)) := by
  obtain ⟨extTotal, adj, ch, hv, hca, hafa, hch, hplan⟩ := buildPaymentTx_ok_elim cfg p plan h
  obtain ⟨hvTot, hvPos⟩ := validateOutputs_ok cfg p.desiredOutputs 0 extTotal hv
  set addrs := p.desiredOutputs.map TxOutput.address with haddrs
  set sel := selectInputUtxos cfg p.unusedUtxos extTotal addrs p.desiredFeeRate
    p.useAllUtxos p.useUnconfirmedUtxos with hsel
  obtain ⟨hT0, hch2, hch3, hch4, k, hk1, hk2, hk3⟩ :=
    changeHandling_ok cfg p.changeAddress p.desiredFeeRate addrs p.unusedUtxos.length
      sel.selectedUtxos.length (sel.selectedTotalSat - adj.2.1 - adj.2.2) adj.2.2 ch hch
  have hextPos : 0 < extTotal := by
    rw [hvTot]
    exact satSum_pos p.desiredOutputs houts (fun o ho => (hvPos o ho).1)
  have houtsLen : 0 < p.desiredOutputs.length := List.length_pos.mpr houts
  -- provenance of the selection fee
  have hselFee : cfg.networkMinRelayFee ≤ sel.feeSat ∨
      (sel.selectedTotalSat = 0 ∧ sel.feeSat = 0) := by
    cases hUA : p.useAllUtxos
    · rw [hUA] at hsel
      rcases selectInputUtxos_fee_cases cfg p.unusedUtxos extTotal addrs p.desiredFeeRate
        p.useUnconfirmedUtxos with hc | ⟨_, hf, _, _⟩ | hf
      · right
        rw [hsel, hc]
        exact ⟨rfl, rfl⟩
      · left
        rw [hsel, hf]
        exact relay_le_estimateTxFee cfg p.desiredFeeRate 1 0 addrs
      · left
        rw [hsel, hf]
        exact relay_le_estimateTxFee cfg p.desiredFeeRate _ _ addrs
    · left
      rw [hUA] at hsel
      rw [hsel, selectInputUtxos_fee_sweep]
      exact relay_le_estimateTxFee cfg p.desiredFeeRate _ 0 addrs
  -- the fee entering change handling is above the relay fee and above the
  -- selection-time estimate
  have hF2 : cfg.networkMinRelayFee ≤ adj.2.2 ∧ sel.feeSat ≤ adj.2.2 := by
    rcases applyFeeAdjustment_ok cfg p.desiredOutputs extTotal sel.feeSat
      sel.selectedTotalSat adj hafa with ⟨hge, hadj⟩ | ⟨hlt, hswp, hmap, hfee2, hext2, hdust2⟩
    · rcases hselFee with hr | ⟨ht0, hf0⟩
      · rw [hadj]
        exact ⟨hr, le_refl _⟩
      · rw [ht0, hf0] at hge
        linarith
    · rcases hselFee with hr | ⟨ht0, hf0⟩
      · have hge0 : 0 ≤ sel.feeSat := le_trans hrelay hr
        have hmul : sel.feeSat ≤ intCeilDiv sel.feeSat p.desiredOutputs.length *
            (p.desiredOutputs.length : ℤ) := le_intCeilDiv_mul houtsLen
        rw [hfee2]
        exact ⟨le_trans hr hmul, hmul⟩
      · rw [ht0] at hswp
        linarith
  have hrecalc : cfg.networkMinRelayFee ≤
      estimateTxFee cfg p.desiredFeeRate sel.selectedUtxos.length
        (if k = 0 then 1 else (k : ℤ)) addrs :=
    relay_le_estimateTxFee cfg p.desiredFeeRate _ _ addrs
  have hfeeRelay : cfg.networkMinRelayFee ≤ ch.2.1 :=
    le_trans (le_min hF2.1 hrecalc) hk3
  constructor
  · rw [hplan]
    exact hfeeRelay
  · intro hUA m hm
    have hkk : ((ch.1.length : ℕ) : ℤ) ≤ (if k = 0 then 1 else (k : ℤ)) := by
      rw [← max_one_cast k]
      exact_mod_cast hk1
    rw [hplan]
    dsimp only
    -- two sources for the final fee: the recalculated estimate or the
    -- selection-time fee
    rcases le_or_lt adj.2.2 (estimateTxFee cfg p.desiredFeeRate sel.selectedUtxos.length
        (if k = 0 then 1 else (k : ℤ)) addrs) with hmin | hmin
    · -- the fee entering change handling survives reconciliation
      have hF2fee : adj.2.2 ≤ ch.2.1 := by
        have hx := hk3
        rw [min_eq_left hmin] at hx
        exact hx
      rw [hUA] at hsel
      rcases selectInputUtxos_fee_cases cfg p.unusedUtxos extTotal addrs p.desiredFeeRate
        p.useUnconfirmedUtxos with hc | ⟨hlen1, hf, hb1, hb2⟩ | hf
      · -- empty selection is impossible once validation passed
        rw [← hsel] at hc
        exfalso
        rcases applyFeeAdjustment_ok cfg p.desiredOutputs extTotal sel.feeSat
          sel.selectedTotalSat adj hafa with ⟨hge, _⟩ | ⟨_, hswp, _⟩
        · rw [hc] at hge
          dsimp only at hge
          linarith
        · rw [hc] at hswp
          dsimp only at hswp
          linarith
      · -- ideal single-input probe: no change output survives
        rw [← hsel] at hlen1 hf hb1 hb2
        rcases applyFeeAdjustment_ok cfg p.desiredOutputs extTotal sel.feeSat
          sel.selectedTotalSat adj hafa with ⟨hge, hadj⟩ | ⟨hlt, _, _⟩
        · subst hadj
          dsimp only at hch hF2fee ⊢
          have hT1 : 0 ≤ sel.selectedTotalSat - extTotal - sel.feeSat := by linarith
          have hT2 : sel.selectedTotalSat - extTotal - sel.feeSat ≤ cfg.dustThreshold := by
            linarith
          have hfe : sel.feeSat ≤ estimateTxFee cfg p.desiredFeeRate
              sel.selectedUtxos.length 1 addrs := by
            rw [hf, hlen1]
            exact estimateTxFee_mono cfg p.desiredFeeRate 1 addrs hrate hminr
              (by norm_num : (0 : ℤ) ≤ 1)
          have hsmall := changeHandling_small cfg p.changeAddress p.desiredFeeRate addrs
            p.unusedUtxos.length sel.selectedUtxos.length
            (sel.selectedTotalSat - extTotal - sel.feeSat) sel.feeSat hT1 hT2 hfe
          rw [hsmall] at hch
          injection hch with hch
          rw [← hch]
          dsimp only [List.length_nil]
          rw [hlen1]
          calc feeRateToSatoshis cfg m 1 ((0 : ℕ) : ℤ) addrs
              ≤ ((estimateTxFee cfg p.desiredFeeRate 1 0 addrs : ℤ) : ℚ) :=
                minTx_le_estimateTxFee cfg p.desiredFeeRate 1 0 addrs m hm
            _ = ((sel.feeSat : ℤ) : ℚ) := by rw [hf]
            _ ≤ (((sel.feeSat + (sel.selectedTotalSat - extTotal - sel.feeSat)) : ℤ) : ℚ) := by
                exact_mod_cast le_add_of_nonneg_right hT1
        · exfalso
          linarith
      · -- incremental accumulation: the fee was estimated for the target
        -- change-output count, which dominates the final count
        rw [← hsel] at hf
        have htcc1 : 1 ≤ determineTargetChangeOutputCount cfg p.unusedUtxos.length
            sel.selectedUtxos.length :=
          determineTargetChangeOutputCount_ge_one cfg _ _
        have hkk2 : ((ch.1.length : ℕ) : ℤ) ≤
            determineTargetChangeOutputCount cfg p.unusedUtxos.length
              sel.selectedUtxos.length := by
          refine le_trans hkk ?_
          split
          · exact htcc1
          · have h1 : ((k : ℕ) : ℤ) ≤ ((determineTargetChangeOutputCount cfg
                p.unusedUtxos.length sel.selectedUtxos.length).toNat : ℤ) := by
              exact_mod_cast hk2
            rwa [Int.toNat_of_nonneg (by linarith)] at h1
        calc feeRateToSatoshis cfg m sel.selectedUtxos.length ((ch.1.length : ℕ) : ℤ) addrs
            ≤ feeRateToSatoshis cfg m sel.selectedUtxos.length
              (determineTargetChangeOutputCount cfg p.unusedUtxos.length
                sel.selectedUtxos.length) addrs :=
              feeRateToSatoshis_mono cfg m _ addrs (hminr m hm) hkk2
          _ ≤ ((estimateTxFee cfg p.desiredFeeRate sel.selectedUtxos.length
              (determineTargetChangeOutputCount cfg p.unusedUtxos.length
                sel.selectedUtxos.length) addrs : ℤ) : ℚ) :=
              minTx_le_estimateTxFee cfg p.desiredFeeRate _ _ addrs m hm
          _ = ((sel.feeSat : ℤ) : ℚ) := by rw [hf]
          _ ≤ ((adj.2.2 : ℤ) : ℚ) := by exact_mod_cast hF2.2
          _ ≤ ((ch.2.1 : ℤ) : ℚ) := by exact_mod_cast hF2fee
    · -- the recalculated estimate survives reconciliation
      have hrcFee : estimateTxFee cfg p.desiredFeeRate sel.selectedUtxos.length
          (if k = 0 then 1 else (k : ℤ)) addrs ≤ ch.2.1 := by
        have hx := hk3
        rw [min_eq_right (le_of_lt hmin)] at hx
        exact hx
      calc feeRateToSatoshis cfg m sel.selectedUtxos.length ((ch.1.length : ℕ) : ℤ) addrs
          ≤ feeRateToSatoshis cfg m sel.selectedUtxos.length
            (if k = 0 then 1 else (k : ℤ)) addrs :=
            feeRateToSatoshis_mono cfg m _ addrs (hminr m hm) hkk
        _ ≤ ((estimateTxFee cfg p.desiredFeeRate sel.selectedUtxos.length
            (if k = 0 then 1 else (k : ℤ)) addrs : ℤ) : ℚ) :=
            minTx_le_estimateTxFee cfg p.desiredFeeRate _ _ addrs m hm
        _ ≤ ((ch.2.1 : ℤ) : ℚ) := by exact_mod_cast hrcFee

theorem c4_witness :
    redistributeLoose cfgW "CHG" [⟨"CHG", 3⟩, ⟨"CHG", 7⟩] 3 100 10 =
      Except.ok ([⟨"CHG", 4⟩, ⟨"CHG", 8⟩], 101, 9) := by
  have h := (c4_loose_change_redistribution cfgW "CHG" [⟨"CHG", 3⟩, ⟨"CHG", 7⟩] 3 100 10
    (by decide) (by decide)).1 (by decide)
  rw [h]
  decide

/-- C4 counterexample: in `buildPaymentTx cfgC4 paramsC4` the weighted split
keeps two change outputs (2 and 4 sat, allocating 6 of the 8 sat of total
change), so the loose change is `8 - 6 = 2`, equal to the number of surviving
change outputs.  The claim (`loose ≥ changeCount` ⇒ add `⌊loose/count⌋ = 1` to
each output and absorb only `loose % count = 0` into the fee) predicts change
outputs 3 and 5 with fee 100; the code instead leaves the outputs at 2 and 4
and absorbs the whole 2 sat into the fee (102), because its guard is
`loose / count > 1`, i.e. strictly greater. -/
theorem c4_counterexample :
    weightedSplit cfgC4 8 7 (createWeightedChangeOutputs 3 "CHG") =
      ([⟨"CHG", 2⟩, ⟨"CHG", 4⟩], 6) ∧
    buildPaymentTx cfgC4 paramsC4 = Except.ok planC4 ∧
    planC4.changeOutputs = [⟨"CHG", 2⟩, ⟨"CHG", 4⟩] ∧
    planC4.feeSat = 102 ∧
    (8 : ℤ) - 6 = ((planC4.changeOutputs.length : ℕ) : ℤ) ∧
    ¬ (planC4.feeSat = 100 + (8 - 6) % 2 ∧
        planC4.changeOutputs = [⟨"CHG", 2 + (8 - 6) / 2⟩, ⟨"CHG", 4 + (8 - 6) / 2⟩]) := by
  decide

theorem c5_witness :
    buildPaymentTx cfgW paramsW = Except.ok planW ∧
    cfgW.networkMinRelayFee ≤ planW.feeSat :=
  ⟨buildW_eval,
    (c5_fee_bounds cfgW paramsW planW (by decide) (by decide)
      (by intro m hm; simp [cfgW] at hm) (by decide) buildW_eval).1⟩

theorem estC5_sweep : estimateTxFee cfgC5 paramsC5.desiredFeeRate 1 0
    (paramsC5.desiredOutputs.map TxOutput.address) = 192 := by
  norm_num [estimateTxFee, feeRateToSatoshis, estimateTxSize, cfgC5, paramsC5]

theorem estC5_recalc : estimateTxFee cfgC5 paramsC5.desiredFeeRate 1 1
    (paramsC5.desiredOutputs.map TxOutput.address) = 226 := by
  norm_num [estimateTxFee, feeRateToSatoshis, estimateTxSize, cfgC5, paramsC5]

theorem selC5_eval : selectInputUtxos cfgC5 paramsC5.unusedUtxos 10000
    (paramsC5.desiredOutputs.map TxOutput.address) paramsC5.desiredFeeRate
    paramsC5.useAllUtxos paramsC5.useUnconfirmedUtxos =
    ⟨[⟨"u5", 0, 100000, some 1⟩], 100000, 192⟩ := by
  have h := estC5_sweep
  simp only [selectInputUtxos, paramsC5] at h ⊢
  norm_num [List.filter, isConfirmedUtxo, utxoSatSum]
  exact h

theorem chC5_eval : changeHandling cfgC5 paramsC5.changeAddress paramsC5.desiredFeeRate
    (paramsC5.desiredOutputs.map TxOutput.address) paramsC5.unusedUtxos.length 1 89808 192 =
    Except.ok ([⟨"CHG", 89808⟩], 192, 89808) := by
  have h := estC5_recalc
  have htcc : determineTargetChangeOutputCount cfgC5
      [(⟨"u5", 0, 100000, some 1⟩ : UtxoIn)].length 1 = 1 := by decide
  have hws : weightedSplit cfgC5 89808 (weightSum (createWeightedChangeOutputs 1 "CHG"))
      (createWeightedChangeOutputs 1 "CHG") = ([⟨"CHG", 89808⟩], 89808) := by decide
  have hrl : redistributeLoose cfgC5 "CHG" [⟨"CHG", 89808⟩] 0 192 89808 =
      Except.ok ([⟨"CHG", 89808⟩], 192, 89808) := by decide
  simp only [changeHandling, paramsC5] at h ⊢
  rw [if_neg (by norm_num)]
  rw [htcc, hws]
  dsimp only
  norm_num
  have h2 : estimateTxFee cfgC5 ⟨100, FeeRateType.Base⟩ 1 1 ["A"] = 226 := by
    norm_num [estimateTxFee, feeRateToSatoshis, estimateTxSize, cfgC5]
  rw [h2]
  norm_num
  exact hrl

theorem buildC5_eval : buildPaymentTx cfgC5 paramsC5 = Except.ok planC5 := by
  have hval : validateOutputs cfgC5 paramsC5.desiredOutputs 0 = .ok 10000 := by decide
  have hafa : applyFeeAdjustment cfgC5 paramsC5.desiredOutputs 10000 192 100000 =
      .ok (paramsC5.desiredOutputs, 10000, 192) := by decide
  rw [buildPaymentTx_unfold cfgC5 paramsC5 10000 hval (by decide)]
  rw [selC5_eval]
  dsimp only
  rw [hafa]
  dsimp only
  simp only [List.length_cons, List.length_nil]
  norm_num [chC5_eval]
  decide

/-- C5 counterexample: `buildPaymentTx cfgC5 paramsC5` (sweep mode,
`useAllUtxos = true`, `minTxFee` of 1 sat/vbyte) returns a plan with one input
and one change output whose fee is 192 sat — the ceiling of the minTxFee
equivalent for the zero-change shape it was estimated with — while the
minTxFee equivalent for the plan's actual shape (1 input, 1 change output,
1 external output) is 226 sat.  The fee is therefore *below* the configured
minimum for the plan's shape, refuting the claim. -/
theorem c5_counterexample :
    buildPaymentTx cfgC5 paramsC5 = Except.ok planC5 ∧
    cfgC5.minTxFee = some ⟨1, FeeRateType.BasePerWeight⟩ ∧
    planC5.inputs.length = 1 ∧
    planC5.changeOutputs.length = 1 ∧
    planC5.feeSat = 192 ∧
    feeRateToSatoshis cfgC5 ⟨1, FeeRateType.BasePerWeight⟩ 1 1
      (paramsC5.desiredOutputs.map TxOutput.address) = 226 ∧
    ¬ (feeRateToSatoshis cfgC5 ⟨1, FeeRateType.BasePerWeight⟩ planC5.inputs.length
        (planC5.changeOutputs.length : ℤ) (paramsC5.desiredOutputs.map TxOutput.address) ≤
      ((planC5.feeSat : ℤ) : ℚ)) := by
  refine ⟨buildC5_eval, by decide, by decide, by decide, by decide, ?_, ?_⟩
  · norm_num [feeRateToSatoshis, estimateTxSize, cfgC5, paramsC5]
  · norm_num [feeRateToSatoshis, estimateTxSize, cfgC5, paramsC5, planC5]

/-! ## Broadcast idempotency -/

/-- C6: `broadcastTransaction` returns `{id := tx.id}` both when the node
facade's `sendTx` succeeds and when it fails with an error message beginning
with `-27` (already in mempool); an error whose message does not begin with
`-27` propagates to the caller unchanged. -/
theorem c6_broadcast_idempotency (tx : SignedTx) (sendTx : String → Except String String) :
    (∀ txId, sendTx tx.dataHex = .ok txId →
      broadcastTransaction tx sendTx = .ok (⟨tx.id⟩, decide (tx.id ≠ txId))) ∧
    (∀ msg, sendTx tx.dataHex = .error msg → strStartsWith msg "-27" = true →
      broadcastTransaction tx sendTx = .ok (⟨tx.id⟩, false)) ∧
    (∀ msg, sendTx tx.dataHex = .error msg → strStartsWith msg "-27" = false →
      broadcastTransaction tx sendTx = .error msg) := by
  refine ⟨?_, ?_, ?_⟩
  · intro txId hm
    simp [broadcastTransaction, hm]
  · intro msg hm hs
    simp [broadcastTransaction, hm, hs]
  · intro msg hm hs
    simp [broadcastTransaction, hm, hs]

theorem c6_witness :
    broadcastTransaction txSigned sendDup = Except.ok (⟨"TXID"⟩, false) ∧
    broadcastTransaction txSigned sendOkSame = Except.ok (⟨"TXID"⟩, false) ∧
    broadcastTransaction txSigned sendFail = Except.error "-26 txn-mempool-conflict" := by
  refine ⟨(c6_broadcast_idempotency txSigned sendDup).2.1 _ rfl (by decide), ?_, ?_⟩
  · have h := (c6_broadcast_idempotency txSigned sendOkSame).1 "TXID" rfl
    rw [h]
    decide
  · exact (c6_broadcast_idempotency txSigned sendFail).2.2 _ rfl (by decide)

/-- C10: whenever `broadcastTransaction` completes without throwing, the
returned id is the caller's original `tx.id`, even when the facade's `sendTx`
succeeded with a different txid — the mismatch is only recorded by the warning
log, and the facade-returned id is never surfaced in the result. -/
theorem c10_broadcast_returns_original_id (tx : SignedTx)
    (sendTx : String → Except String String) (res : BroadcastResult) (warned : Bool)
    (h : broadcastTransaction tx sendTx = .ok (res, warned)) :
    res.id = tx.id ∧
    (warned = true → ∃ txId, sendTx tx.dataHex = .ok txId ∧ txId ≠ tx.id) := by
  unfold broadcastTransaction at h
  cases hs : sendTx tx.dataHex with
  | ok txId =>
      rw [hs] at h
      injection h with h
      obtain ⟨h1, h2⟩ := (Prod.mk.injEq _ _ _ _).mp h
      subst h2
      constructor
      · rw [← h1]
      · intro hw
        exact ⟨txId, rfl, fun he => (of_decide_eq_true hw) he.symm⟩
  | error e =>
      rw [hs] at h
      dsimp only at h
      split at h
      · injection h with h
        obtain ⟨h1, h2⟩ := (Prod.mk.injEq _ _ _ _).mp h
        subst h2
        constructor
        · rw [← h1]
        · intro hw
          exact Bool.noConfusion hw
      · exact absurd h (by simp)

theorem c10_witness :
    broadcastTransaction txSigned sendOkDiff = Except.ok (⟨"TXID"⟩, true) ∧
    (⟨"TXID"⟩ : BroadcastResult).id = txSigned.id ∧
    ∃ txId, sendOkDiff txSigned.dataHex = Except.ok txId ∧ txId ≠ txSigned.id := by
  have hb : broadcastTransaction txSigned sendOkDiff = Except.ok (⟨"TXID"⟩, true) := by decide
  have h := c10_broadcast_returns_original_id txSigned sendOkDiff ⟨"TXID"⟩ true hb
  exact ⟨hb, h.1, h.2 rfl⟩

/-! ## Ripple balance activities -/

theorem lex_append_00_01 :
    ∀ l : List Char, List.Lex (· < ·) (l ++ ['0', '0']) (l ++ ['0', '1']) := by
  intro l
  induction l with
  | nil => exact List.Lex.cons (List.Lex.rel (by decide))
  | cons c cs ih => exact List.Lex.cons ih

theorem strLt_append_00_01 (s : String) : (s ++ "00") < (s ++ "01") := by
  rw [String.lt_iff_toList_lt]
  have h1 : (s ++ "00").toList = s.toList ++ ['0', '0'] := rfl
  have h2 : (s ++ "01").toList = s.toList ++ ['0', '1'] := rfl
  rw [h1, h2]
  exact lex_append_00_01 s.toList

theorem paymentToBalanceActivities_shape (networkType address ledgerHash : String)
    (closeTime : ℤ) (tx : RippleTx) (a : BalanceActivity)
    (h : paymentToBalanceActivities networkType address tx ledgerHash closeTime = some a) :
    a.activitySequence =
      padLeft (toString tx.ledgerVersion) 12 '0' ++ "." ++
      padLeft (toString tx.indexInLedger) 8 '0' ++ "." ++
      (if tx.sourceAddress = address then "00" else "01") ∧
    (a.kind = ActivityKind.outgoing ↔ tx.sourceAddress = address) := by
  simp only [paymentToBalanceActivities] at h
  by_cases hc1 : tx.sourceAddress = address
  · rw [if_pos hc1] at h
    dsimp only at h
    cases hf : (((tx.balanceChanges.find? (fun e => e.1 == address)).map Prod.snd).getD
        []).find? (fun c => c.currency == "XRP") with
    | none =>
        rw [hf] at h
        exact Option.noConfusion h
    | some bc =>
        rw [hf] at h
        injection h with h
        rw [← h, if_pos hc1]
        exact ⟨rfl, by simp [hc1]⟩
  · rw [if_neg hc1] at h
    by_cases hc2 : tx.destinationAddress = address
    · rw [if_pos hc2] at h
      dsimp only at h
      cases hf : (((tx.balanceChanges.find? (fun e => e.1 == address)).map Prod.snd).getD
          []).find? (fun c => c.currency == "XRP") with
      | none =>
          rw [hf] at h
          exact Option.noConfusion h
      | some bc =>
          rw [hf] at h
          injection h with h
          rw [← h, if_neg hc1]
          refine ⟨rfl, ?_⟩
          constructor
          · intro hk
            exact ActivityKind.noConfusion hk
          · intro hk
            exact absurd hk hc1
    · rw [if_neg hc2] at h
      exact Option.noConfusion h

/-- C7: every balance activity produced by `paymentToBalanceActivities` for a
payment transaction carries
`activitySequence = zero_pad(ledgerVersion, 12) ++ "." ++
 zero_pad(indexInLedger, 8) ++ "." ++ tertiary`, with tertiary `"00"` when the
direction is out (`source.address = address`) and `"01"` when it is in; and
consequently, at equal `(ledgerVersion, indexInLedger)`, an out activity sorts
lexicographically strictly before an in activity. -/
theorem c7_activity_sequence (networkType address ledgerHash : String) (closeTime : ℤ)
    (tx : RippleTx) (a : BalanceActivity)
    (h : paymentToBalanceActivities networkType address tx ledgerHash closeTime = some a) :
    a.activitySequence =
      padLeft (toString tx.ledgerVersion) 12 '0' ++ "." ++
      padLeft (toString tx.indexInLedger) 8 '0' ++ "." ++
      (if tx.sourceAddress = address then "00" else "01") ∧
    (a.kind = ActivityKind.outgoing ↔ tx.sourceAddress = address) ∧
    (∀ (networkType2 address2 ledgerHash2 : String) (closeTime2 : ℤ) (tx2 : RippleTx)
      (a2 : BalanceActivity),
      paymentToBalanceActivities networkType2 address2 tx2 ledgerHash2 closeTime2 = some a2 →
      tx2.ledgerVersion = tx.ledgerVersion → tx2.indexInLedger = tx.indexInLedger →
      tx.sourceAddress = address → tx2.sourceAddress ≠ address2 →
      a.activitySequence < a2.activitySequence) := by
  obtain ⟨hseq1, hkind1⟩ :=
    paymentToBalanceActivities_shape networkType address ledgerHash closeTime tx a h
  refine ⟨hseq1, hkind1, ?_⟩
  intro networkType2 address2 ledgerHash2 closeTime2 tx2 a2 h2 hlv hidx hout hin2
  obtain ⟨hseq2, _⟩ :=
    paymentToBalanceActivities_shape networkType2 address2 ledgerHash2 closeTime2 tx2 a2 h2
  rw [hseq1, hseq2, hlv, hidx, if_pos hout, if_neg hin2]
  exact strLt_append_00_01 _

theorem c7_witness :
    paymentToBalanceActivities "mainnet" "S" txOut7 "HASH" 42 = some actOut7 ∧
    actOut7.activitySequence = "000000000005.00000003.00" ∧
    paymentToBalanceActivities "mainnet" "D" txIn7 "HASH" 42 = some actIn7 ∧
    actIn7.activitySequence = "000000000005.00000003.01" ∧
    actOut7.activitySequence < actIn7.activitySequence := by
  have h1 : paymentToBalanceActivities "mainnet" "S" txOut7 "HASH" 42 = some actOut7 := by
    decide
  have h2 : paymentToBalanceActivities "mainnet" "D" txIn7 "HASH" 42 = some actIn7 := by
    decide
  refine ⟨h1, rfl, h2, rfl, ?_⟩
  exact (c7_activity_sequence "mainnet" "S" "HASH" 42 txOut7 actOut7 h1).2.2
    "mainnet" "D" "HASH" 42 txIn7 actIn7 h2 rfl rfl rfl (by decide)

/-- C8: the effective scan window of `resolveFromToLedgers` is the
intersection of the requested range with the server-retained range
`[completeMin, completeMax]` — `from = max(requestedFrom, completeMin)` and
`to = min(requestedTo, completeMax)`, defaulting to the server bounds when
unspecified — and a request wider than the retained range only produces
narrowing warnings (one per narrowed bound); the function never fails. -/
theorem c8_window_intersection (completeMin completeMax : ℕ)
    (fromBound toBound : Option LedgerBound) :
    (resolveFromToLedgers completeMin completeMax fromBound toBound).fromLedger =
      max completeMin ((requestedLedger fromBound).getD completeMin) ∧
    (resolveFromToLedgers completeMin completeMax fromBound toBound).toLedger =
      min completeMax ((requestedLedger toBound).getD completeMax) ∧
    (resolveFromToLedgers completeMin completeMax fromBound toBound).warnings =
      (match requestedLedger fromBound with
        | some n => if n < completeMin then 1 else 0
        | none => 0) +
      (match requestedLedger toBound with
        | some n => if completeMax < n then 1 else 0
        | none => 0) := by
  simp only [resolveFromToLedgers]
  cases hf : requestedLedger fromBound <;> cases ht : requestedLedger toBound <;>
    dsimp only <;> refine ⟨?_, ?_, ?_⟩ <;> try simp
  all_goals split_ifs <;> simp_all <;> omega

/-- C9: the Ripple monitor's `paymentToBalanceActivities` hard-codes
`networkSymbol := "TRX"` on every ledger-family balance activity — here shown
on a concrete XRP payment, whose activity carries `networkSymbol = "TRX"`
rather than the Ripple network symbol, while the asset symbol read from the
balance change is `"XRP"`. -/
theorem c9_network_symbol_bug :
    paymentToBalanceActivities "mainnet" "S" txOut7 "HASH" 42 = some actOut7 ∧
    actOut7.networkSymbol = "TRX" ∧
    actOut7.assetSymbol = "XRP" ∧
    actOut7.networkSymbol ≠ actOut7.assetSymbol := by
  refine ⟨by decide, rfl, rfl, by decide⟩
